import Mathlib

/-!
Verification development for the depstat graph-traversal engine
(cmd/why.go and cmd/stats.go).

The Go code works on `map[string][]string` dependency graphs.  A Go map with
unique keys is embedded as an association list `List (String × List String)`;
lookup of an absent key yields `[]`, exactly as a Go map lookup of a missing
key yields a nil slice.  Go sets (`map[string]bool`) are embedded as lists
used at the level of membership, with insertion only when absent, so that
the list is duplicate free and membership coincides with the Go map.

Recursive Go functions are embedded with an explicit fuel argument so that
every definition is structurally recursive and executable; each public
wrapper supplies a fuel that is proved sufficient (the termination
arguments in the Go code are mirrored by fuel-lower-bound hypotheses in
the lemmas below, and fuel irrelevance is proved for the claims that are
about termination).
-/

namespace Depstat

/-- A dependency graph: association list from node to its ordered successor
list, embedding Go's `map[string][]string` (keys unique). -/
abbrev Graph := List (String × List String)

/-- A dependency chain, as in stats.go: `type Chain []string`. -/
abbrev Chain := List String

/-- Map lookup: successors of a node, `[]` when the key is absent
(Go: `graph[k]` yields nil for a missing key). -/
def lookupG : Graph → String → List String
  | [], _ => []
  | e :: rest, k => if e.1 = k then e.2 else lookupG rest k

/-- The keys of the graph map. -/
def keysOf (g : Graph) : List String := g.map Prod.fst

/-- Every string appearing in a successor list of the graph. -/
def valuesOf (g : Graph) : List String := (g.map Prod.snd).flatten

/-- Every string appearing anywhere in the graph. -/
def nodesOf (g : Graph) : List String := keysOf g ++ valuesOf g

/-- The edge relation of the graph: `hasEdge g a b` iff the map entry of
`a` lists `b` as a successor. -/
def hasEdge (g : Graph) (a b : String) : Prop := b ∈ lookupG g a

instance (g : Graph) (a b : String) : Decidable (hasEdge g a b) :=
  inferInstanceAs (Decidable (b ∈ lookupG g a))

/-- Reachability along an adjacency function: zero or more steps. -/
inductive ReachesVia (adj : String → List String) : String → String → Prop
  | refl (n : String) : ReachesVia adj n n
  | head {a b c : String} : b ∈ adj a → ReachesVia adj b c → ReachesVia adj a c

/-- A directed path of zero or more edges from `a` to `b` in `g`. -/
def Reaches (g : Graph) (a b : String) : Prop := ReachesVia (lookupG g) a b

/-- Every consecutive pair of nodes in the list is an edge of `g`. -/
def consecEdges (g : Graph) : List String → Prop
  | [] => True
  | [_] => True
  | a :: b :: rest => hasEdge g a b ∧ consecEdges g (b :: rest)

instance consecEdgesDec (g : Graph) : (l : List String) → Decidable (consecEdges g l)
  | [] => isTrue trivial
  | [_] => isTrue trivial
  | a :: b :: rest =>
    have : Decidable (consecEdges g (b :: rest)) := consecEdgesDec g (b :: rest)
    inferInstanceAs (Decidable (hasEdge g a b ∧ consecEdges g (b :: rest)))

/-- A simple path in `g` from `a` to `b`: nonempty, starts at `a`, ends at
`b`, no repeated node, consecutive nodes joined by edges. -/
def IsSimplePath (g : Graph) (a b : String) (p : List String) : Prop :=
  p.head? = some a ∧ p.getLast? = some b ∧ p.Nodup ∧ consecEdges g p

instance (g : Graph) (a b : String) (p : List String) :
    Decidable (IsSimplePath g a b p) :=
  inferInstanceAs
    (Decidable (p.head? = some a ∧ p.getLast? = some b ∧ p.Nodup ∧ consecEdges g p))

/-- Reachability in one or more steps. -/
def ReachesPlus (g : Graph) (a b : String) : Prop :=
  ∃ c, hasEdge g a c ∧ Reaches g c b

/-- The graph has no directed cycle. -/
def Acyclic (g : Graph) : Prop := ∀ n, ¬ ReachesPlus g n n

/-- A (not necessarily simple) chain of successors starting at `n`:
nonempty, headed by `n`, consecutive nodes joined by edges. -/
def SuccChainFrom (g : Graph) (n : String) (p : List String) : Prop :=
  p.head? = some n ∧ consecEdges g p

/-- Every consecutive pair of the list is a member of the edge list `E`. -/
def consecIn (E : List (String × String)) : List String → Prop
  | [] => True
  | [_] => True
  | a :: b :: rest => (a, b) ∈ E ∧ consecIn E (b :: rest)

instance consecInDec (E : List (String × String)) :
    (l : List String) → Decidable (consecIn E l)
  | [] => isTrue trivial
  | [_] => isTrue trivial
  | a :: b :: rest =>
    have : Decidable (consecIn E (b :: rest)) := consecInDec E (b :: rest)
    inferInstanceAs (Decidable ((a, b) ∈ E ∧ consecIn E (b :: rest)))

/-- The edge list `E` contains a directed cycle: some node has a directed
path of at least one `E`-edge back to itself. -/
def HasEdgeCycle (E : List (String × String)) : Prop :=
  ∃ p : List String, 2 ≤ p.length ∧ consecIn E p ∧ p.head? = p.getLast?

/-- How many entries of `B` are not members of `r` (the fuel measure of the
breadth-first and depth-first searches). -/
def unseenCount (B r : List String) : Nat :=
  (B.filter (fun x => x ∉ r)).length

/-! ## computeReachableToTarget (why.go)

```go
func computeReachableToTarget(target string, graph map[string][]string) map[string]bool {
    reverse := make(map[string][]string)
    for from, tos := range graph {
        for _, to := range tos {
            reverse[to] = append(reverse[to], from)
        }
    }
    reachable := map[string]bool{target: true}
    queue := []string{target}
    for len(queue) > 0 {
        cur := queue[0]
        queue = queue[1:]
        for _, prev := range reverse[cur] {
            if !reachable[prev] {
                reachable[prev] = true
                queue = append(queue, prev)
            }
        }
    }
    return reachable
}
```
-/

/-- `reverse[to] = append(reverse[to], from)`: append `v` to the entry of
key `k`, creating the entry when absent. -/
def updateG : Graph → String → String → Graph
  | [], k, v => [(k, [v])]
  | e :: rest, k, v =>
    if e.1 = k then (e.1, e.2 ++ [v]) :: rest else e :: updateG rest k v

/-- The reverse adjacency map built by computeReachableToTarget. -/
def buildReverse (g : Graph) : Graph :=
  g.foldl (fun rev e => e.2.foldl (fun rev2 t => updateG rev2 t e.1) rev) []

/-- One pass of the inner loop of a BFS round: mark and enqueue every listed
node that is not yet marked. -/
def enqueueNew : List String → List String × List String → List String × List String
  | [], rq => rq
  | x :: xs, rq =>
    if x ∈ rq.1 then enqueueNew xs rq else enqueueNew xs (rq.1 ++ [x], rq.2 ++ [x])

/-- The BFS worklist loop shared by computeReachableToTarget (on the reverse
map) and computePathSubgraph (on the reachability-filtered forward map). -/
def bfsF (adj : String → List String) : Nat → List String → List String → List String
  | 0, r, _ => r
  | _ + 1, r, [] => r
  | fuel + 1, r, cur :: rest =>
    let rq := enqueueNew (adj cur) (r, rest)
    bfsF adj fuel rq.1 rq.2

/-- why.go computeReachableToTarget: reverse BFS from the target; the
returned list plays the role of the returned `map[string]bool` (membership
= the map holding true). -/
def computeReachableToTarget (target : String) (g : Graph) : List String :=
  let rev := buildReverse g
  bfsF (fun cur => lookupG rev cur) ((valuesOf rev).length + 2) [target] [target]

/-! ## findAllPaths (why.go)

```go
func findAllPaths(start, target string, graph map[string][]string, reachable map[string]bool,
    currentPath []string, visited map[string]bool, out *[][]string, maxPaths int) {
    if start == target {
        pathCopy := make([]string, len(currentPath)+1)
        copy(pathCopy, append(currentPath, start))
        *out = append(*out, pathCopy)
        return
    }
    if maxPaths > 0 && len(*out) >= maxPaths { return }
    if !reachable[start] { return }
    if whyMaxDepth > 0 && len(currentPath) >= whyMaxDepth { return }
    currentPath = append(currentPath, start)
    if visited[start] { return }
    visited[start] = true
    defer func() { visited[start] = false }()
    for _, next := range graph[start] {
        if !reachable[next] { continue }
        findAllPaths(next, target, graph, reachable, currentPath, visited, out, maxPaths)
        if maxPaths > 0 && len(*out) >= maxPaths { return }
    }
}
```

The global flag `whyMaxDepth` is passed explicitly.  The `defer` restores
`visited`, so each recursive call leaves `visited` as it found it: the
callee receives `start :: visited` and siblings receive the same list.
-/

/-- The successor loop of findAllPaths, with the budget early-return after
each recursive call. -/
def fapLoop (reachable : List String) (maxPaths : Int)
    (rec : String → List (List String) → List (List String)) :
    List String → List (List String) → List (List String)
  | [], out => out
  | next :: rest, out =>
    if next ∈ reachable then
      let out2 := rec next out
      if maxPaths > 0 ∧ (out2.length : Int) ≥ maxPaths then out2
      else fapLoop reachable maxPaths rec rest out2
    else fapLoop reachable maxPaths rec rest out

/-- Fuelled body of findAllPaths. -/
def fapNodeF (g : Graph) (reachable : List String) (maxPaths maxDepth : Int)
    (target : String) :
    Nat → String → List String → List String → List (List String) → List (List String)
  | 0, _, _, _, out => out
  | fuel + 1, start, currentPath, visited, out =>
    if start = target then out ++ [currentPath ++ [start]]
    else if maxPaths > 0 ∧ (out.length : Int) ≥ maxPaths then out
    else if start ∉ reachable then out
    else if maxDepth > 0 ∧ (currentPath.length : Int) ≥ maxDepth then out
    else if start ∈ visited then out
    else
      fapLoop reachable maxPaths
        (fun next acc =>
          fapNodeF g reachable maxPaths maxDepth target fuel next
            (currentPath ++ [start]) (start :: visited) acc)
        (lookupG g start) out

/-- why.go findAllPaths.  The recursion depth is bounded by the number of
graph nodes plus one (each level of descent marks a fresh graph node in
`visited`), so this fuel never runs out; `fapNodeF_fuel_irrelevant` below
proves it. -/
def findAllPaths (start target : String) (graph : Graph) (reachable : List String)
    (currentPath : List String) (visited : List String)
    (out : List (List String)) (maxPaths : Int) (whyMaxDepth : Int) :
    List (List String) :=
  fapNodeF graph reachable maxPaths whyMaxDepth target
    ((nodesOf graph).length + 1) start currentPath visited out

/-! ## getLongestChain (stats.go)

```go
func getLongestChain(currentDep string, graph map[string][]string,
    currentChain Chain, longestChains map[string]Chain) Chain {
    if longestChain, ok := longestChains[currentDep]; ok { return longestChain }
    deps := graph[currentDep]
    if len(deps) == 0 {
        longestChains[currentDep] = Chain{currentDep}
        return longestChains[currentDep]
    }
    if contains(currentChain, currentDep) { return nil }
    currentChain = append(currentChain, currentDep)
    var longestDepChain Chain
    for _, dep := range deps {
        depChain := getLongestChain(dep, graph, currentChain, longestChains)
        if len(depChain) > len(longestDepChain) { longestDepChain = depChain }
    }
    longestChains[currentDep] = append(Chain{currentDep}, longestDepChain...)
    return longestChains[currentDep]
}
```

The memoization map is threaded explicitly (it is mutated in place in Go).
-/

/-- The memoization table `map[string]Chain`. -/
abbrev Memo := List (String × Chain)

/-- Memo lookup (`longestChains[currentDep]` with its ok flag). -/
def lookupM : Memo → String → Option Chain
  | [], _ => none
  | e :: rest, k => if e.1 = k then some e.2 else lookupM rest k

/-- Memo write: the newest binding wins, as a Go map assignment does. -/
def insertM (m : Memo) (k : String) (c : Chain) : Memo := (k, c) :: m

/-- The successor loop of getLongestChain, keeping the longest chain. -/
def glcLoop (rec : String → Memo → Chain × Memo) :
    List String → Chain → Memo → Chain × Memo
  | [], best, memo => (best, memo)
  | dep :: rest, best, memo =>
    let cm := rec dep memo
    let best2 := if cm.1.length > best.length then cm.1 else best
    glcLoop rec rest best2 cm.2

/-- Fuelled body of getLongestChain. -/
def glcF (g : Graph) : Nat → String → Chain → Memo → Chain × Memo
  | 0, _, _, memo => ([], memo)
  | fuel + 1, currentDep, currentChain, memo =>
    match lookupM memo currentDep with
    | some c => (c, memo)
    | none =>
      if lookupG g currentDep = [] then
        ([currentDep], insertM memo currentDep [currentDep])
      else if currentDep ∈ currentChain then ([], memo)
      else
        let bm := glcLoop
          (fun dep m => glcF g fuel dep (currentChain ++ [currentDep]) m)
          (lookupG g currentDep) [] memo
        (currentDep :: bm.1, insertM bm.2 currentDep (currentDep :: bm.1))

/-- stats.go getLongestChain.  Depth of recursion is bounded by the number
of graph nodes plus one (each level appends a fresh graph key to
`currentChain`), so the supplied fuel never runs out. -/
def getLongestChain (currentDep : String) (graph : Graph)
    (currentChain : Chain) (longestChains : Memo) : Chain :=
  (glcF graph ((nodesOf graph).length + 1) currentDep currentChain longestChains).1

/-! ## computePathSubgraph (why.go)

```go
func computePathSubgraph(mainModules []string, graph map[string][]string,
    reachable map[string]bool) (map[string]bool, map[svgEdge]bool) {
    forward := make(map[string]bool)
    queue := make([]string, 0)
    for _, m := range mainModules {
        if reachable[m] { forward[m] = true; queue = append(queue, m) }
    }
    for len(queue) > 0 {
        cur := queue[0]
        queue = queue[1:]
        for _, next := range graph[cur] {
            if reachable[next] && !forward[next] {
                forward[next] = true
                queue = append(queue, next)
            }
        }
    }
    nodeSet := forward
    adj := ...  // per node: sorted successors restricted to nodeSet
    // three-color DFS over sorted nodes, recording all non-back edges
    ...
    return nodeSet, edgeSet
}
```

`svgEdge{From, To}` is embedded as `String × String`.
-/

/-- Lexicographic comparison of strings by character value (the order used
by Go's byte-wise `sort.Strings`; only membership in the sorted lists
matters for the properties proved here). -/
def charListLe : List Char → List Char → Bool
  | [], _ => true
  | _ :: _, [] => false
  | a :: as, b :: bs =>
    if a.val < b.val then true
    else if b.val < a.val then false
    else charListLe as bs

/-- String comparison for sorting. -/
def strLe (a b : String) : Bool := charListLe a.data b.data

/-- Insertion into a sorted list of strings. -/
def insertSorted (x : String) : List String → List String
  | [] => [x]
  | y :: ys => if strLe x y then x :: y :: ys else y :: insertSorted x ys

/-- `sort.Strings`. -/
def sortStrings (l : List String) : List String := l.foldr insertSorted []

/-- Seeding of the forward BFS: every main module that can reach the target
is marked and enqueued. -/
def initSeedsStep (reachable : List String) (rq : List String × List String)
    (m : String) : List String × List String :=
  if m ∈ reachable then
    (if m ∈ rq.1 then rq.1 else rq.1 ++ [m], rq.2 ++ [m])
  else rq

def initSeeds (reachable : List String) (mains : List String) :
    List String × List String :=
  mains.foldl (initSeedsStep reachable) ([], [])

/-- The adjacency map restricted to subgraph nodes, successor lists sorted
(`adj[from]` in the Go code; `[]` for nodes outside the subgraph, as a Go
map lookup of a missing key). -/
def adjRestricted (g : Graph) (nodeSet : List String) (a : String) : List String :=
  if a ∈ nodeSet then sortStrings ((lookupG g a).filter (fun t => t ∈ nodeSet))
  else []

/-- The three-color DFS state: `active` are the on-stack nodes
(`visitActive`), `done` the finished ones in finishing order (`visitDone`);
a node in neither list is `visitUnseen`.  `edges` is the recorded edge
set. -/
structure DfsSt where
  active : List String
  done : List String
  edges : List (String × String)
deriving Repr, DecidableEq

/-- Edge-set insertion (a Go map write is idempotent on a present key). -/
def insertEdge (es : List (String × String)) (e : String × String) :
    List (String × String) :=
  if e ∈ es then es else es ++ [e]

/-- The successor loop of the subgraph DFS: record edges to unseen nodes and
recurse; skip edges to active nodes (back-edges); record edges to done
nodes without recursing. -/
def dfsLoop (rec : String → DfsSt → DfsSt) :
    List String → String → DfsSt → DfsSt
  | [], _, st => st
  | next :: rest, cur, st =>
    let st2 :=
      if next ∈ st.done then { st with edges := insertEdge st.edges (cur, next) }
      else if next ∈ st.active then st
      else rec next { st with edges := insertEdge st.edges (cur, next) }
    dfsLoop rec rest cur st2

/-- Fuelled body of the subgraph DFS (`dfs` in computePathSubgraph). -/
def dfsF (adj : String → List String) : Nat → String → DfsSt → DfsSt
  | 0, _, st => st
  | fuel + 1, cur, st =>
    let st1 : DfsSt := { st with active := cur :: st.active }
    let st2 := dfsLoop (fun n s => dfsF adj fuel n s) (adj cur) cur st1
    { st2 with active := st2.active.erase cur, done := st2.done ++ [cur] }

/-- The entry loop: run the DFS from every still-unseen node, in sorted
order. -/
def dfsEntry (adj : String → List String) (fuel : Nat) :
    List String → DfsSt → DfsSt
  | [], st => st
  | n :: rest, st =>
    let st2 := if n ∉ st.active ∧ n ∉ st.done then dfsF adj fuel n st else st
    dfsEntry adj fuel rest st2

/-- why.go computePathSubgraph: forward BFS from the main modules restricted
to nodes that can reach the target, then a cycle-skipping DFS recording the
edge set. -/
def computePathSubgraph (mainModules : List String) (g : Graph)
    (reachable : List String) : List String × List (String × String) :=
  let rq := initSeeds reachable mainModules
  let nodeSet := bfsF (fun cur => (lookupG g cur).filter (fun t => t ∈ reachable))
    ((valuesOf g).length + mainModules.length + 2) rq.1 rq.2
  let nodes := sortStrings nodeSet
  let st := dfsEntry (adjRestricted g nodeSet) (nodes.length + 1) nodes
    { active := [], done := [], edges := [] }
  (nodeSet, st.edges)

/-- Index of the first occurrence of a string in a list (length of the
list when absent); used to express the finishing order of the subgraph
DFS. -/
def idxIn : List String → String → Nat
  | [], _ => 0
  | x :: xs, a => if x = a then 0 else idxIn xs a + 1

/-- Invariant of the three-color DFS state over the node universe `V`:
the color lists are duplicate free and disjoint, stay inside `V`, every
recorded edge leaves a colored node and enters `V`, and once an edge's
source is finished its target finished strictly earlier. -/
def StInv (V : List String) (st : DfsSt) : Prop :=
  st.active.Nodup ∧ st.done.Nodup ∧ (∀ x ∈ st.active, x ∉ st.done) ∧
  (∀ x ∈ st.active, x ∈ V) ∧ (∀ x ∈ st.done, x ∈ V) ∧
  (∀ e ∈ st.edges, (e.1 ∈ st.active ∨ e.1 ∈ st.done) ∧ e.2 ∈ V) ∧
  (∀ e ∈ st.edges, e.1 ∈ st.done →
    e.2 ∈ st.done ∧ idxIn st.done e.2 < idxIn st.done e.1)

/-- Validity invariant of the getLongestChain memoization table: every
cached chain is headed by its key, follows edges, repeats no node, and
consists of cached keys only. -/
def ValidMemo (g : Graph) (m : Memo) : Prop :=
  ∀ k c, lookupM m k = some c →
    c.head? = some k ∧ consecEdges g c ∧ c.Nodup ∧
    ∀ x ∈ c, (lookupM m x).isSome = true

/-- Optimality invariant of the memoization table on an acyclic graph:
every cached chain is a successor chain from its key of maximal length. -/
def GoodMemo (g : Graph) (m : Memo) : Prop :=
  ∀ k c, lookupM m k = some c →
    SuccChainFrom g k c ∧ ∀ p, SuccChainFrom g k p → p.length ≤ c.length

/-- Specification of a path emitted by a findAllPaths frame whose current
path is `cp` and whose current node is `start`: the path extends
`cp ++ [start]`, ends at the target, is simple, follows edges, stays in the
reachability set when the target is in it, and respects the depth limit. -/
def EmittedOK (g : Graph) (reachable : List String) (maxDepth : Int)
    (target : String) (cp : List String) (start : String) (p : List String) : Prop :=
  (∃ t, p = cp ++ start :: t) ∧ p.getLast? = some target ∧ p.Nodup ∧
    consecEdges g p ∧ (target ∈ reachable → ∀ x ∈ p, x ∈ reachable) ∧
    (maxDepth > 0 → (p.length : Int) ≤ maxDepth + 1)

/-! ## Basic lemmas -/

theorem lookupG_ne_nil_mem_keys {g : Graph} {k : String} (h : lookupG g k ≠ []) :
    k ∈ keysOf g := by
  induction g with
  | nil => simp [lookupG] at h
  | cons e rest ih =>
    by_cases hk : e.1 = k
    · simp [keysOf, hk.symm]
    · simp only [lookupG, if_neg hk] at h
      simpa [keysOf] using Or.inr (by simpa [keysOf] using ih h)

theorem mem_lookupG_mem_values {g : Graph} {k x : String} (h : x ∈ lookupG g k) :
    x ∈ valuesOf g := by
  induction g with
  | nil => simp [lookupG] at h
  | cons e rest ih =>
    by_cases hk : e.1 = k
    · simp only [lookupG, if_pos hk] at h
      simp [valuesOf]
      exact Or.inl h
    · simp only [lookupG, if_neg hk] at h
      have := ih h
      simp [valuesOf] at this ⊢
      exact Or.inr this

theorem mem_keys_mem_nodes {g : Graph} {k : String} (h : k ∈ keysOf g) :
    k ∈ nodesOf g := by
  simp [nodesOf]; exact Or.inl h

theorem mem_values_mem_nodes {g : Graph} {x : String} (h : x ∈ valuesOf g) :
    x ∈ nodesOf g := by
  simp [nodesOf]; exact Or.inr h

theorem unseenCount_le (B r : List String) : unseenCount B r ≤ B.length :=
  List.length_filter_le _ _

theorem unseenCount_cons (b : String) (B r : List String) :
    unseenCount (b :: B) r = (if b ∈ r then 0 else 1) + unseenCount B r := by
  by_cases hb : b ∈ r
  · simp [unseenCount, List.filter_cons, hb]
  · simp [unseenCount, List.filter_cons, hb]
    omega

theorem unseenCount_mono {r r2 : List String} (B : List String)
    (h : ∀ x ∈ r, x ∈ r2) : unseenCount B r2 ≤ unseenCount B r := by
  induction B with
  | nil => simp [unseenCount]
  | cons b B ih =>
    rw [unseenCount_cons, unseenCount_cons]
    by_cases h2 : b ∈ r2
    · by_cases hr : b ∈ r <;> simp [h2, hr] <;> omega
    · have hr : b ∉ r := fun hb => h2 (h b hb)
      simp [h2, hr]
      omega

theorem unseenCount_lt {B r r2 : List String} {a : String} (ha : a ∈ B)
    (h1 : a ∉ r) (h2 : a ∈ r2) (h : ∀ x ∈ r, x ∈ r2) :
    unseenCount B r2 < unseenCount B r := by
  induction B with
  | nil => simp at ha
  | cons b B ih =>
    rw [unseenCount_cons, unseenCount_cons]
    by_cases hb : b = a
    · subst hb
      have := unseenCount_mono B h
      simp [h1, h2]
      omega
    · have ha2 : a ∈ B := by
        rcases List.mem_cons.mp ha with h | h
        · exact absurd h.symm hb
        · exact h
      have hlt := ih ha2
      by_cases hbr2 : b ∈ r2
      · by_cases hbr : b ∈ r <;> simp [hbr2, hbr] <;> omega
      · have hbr : b ∉ r := fun hb2 => hbr2 (h b hb2)
        simp [hbr2, hbr]
        omega

theorem consecEdges_tail {g : Graph} {a : String} {l : List String}
    (h : consecEdges g (a :: l)) : consecEdges g l := by
  cases l with
  | nil => trivial
  | cons b rest => exact h.2

theorem consecEdges_snoc {g : Graph} {a b : String} (l : List String)
    (h : consecEdges g (l ++ [a])) (e : hasEdge g a b) :
    consecEdges g (l ++ [a, b]) := by
  induction l with
  | nil => exact ⟨e, trivial⟩
  | cons x l ih =>
    cases l with
    | nil => exact ⟨h.1, e, trivial⟩
    | cons y l2 =>
      refine ⟨h.1, ?_⟩
      exact ih h.2

/-! ## findAllPaths: soundness of every emitted path -/

theorem fapLoop_spec {reachable : List String} {maxPaths : Int}
    {rec : String → List (List String) → List (List String)}
    {Q : String → List String → Prop}
    (succs : List String) (out : List (List String))
    (hrec : ∀ next acc, next ∈ succs →
      ∃ new, rec next acc = acc ++ new ∧ ∀ p ∈ new, Q next p) :
    ∃ new, fapLoop reachable maxPaths rec succs out = out ++ new ∧
      ∀ p ∈ new, ∃ next ∈ succs, Q next p := by
  induction succs generalizing out with
  | nil => exact ⟨[], by simp [fapLoop]⟩
  | cons next rest ih =>
    have hunfold : fapLoop reachable maxPaths rec (next :: rest) out =
        if next ∈ reachable then
          (if maxPaths > 0 ∧ ((rec next out).length : Int) ≥ maxPaths then rec next out
           else fapLoop reachable maxPaths rec rest (rec next out))
        else fapLoop reachable maxPaths rec rest out := rfl
    have ihrest : ∀ acc, ∃ new, fapLoop reachable maxPaths rec rest acc = acc ++ new ∧
        ∀ p ∈ new, ∃ n ∈ rest, Q n p :=
      fun acc => ih acc (fun n a hn => hrec n a (List.mem_cons_of_mem _ hn))
    by_cases hr : next ∈ reachable
    · obtain ⟨new1, heq, hQ⟩ := hrec next out (List.mem_cons_self _ _)
      by_cases hstop : maxPaths > 0 ∧ ((rec next out).length : Int) ≥ maxPaths
      · refine ⟨new1, ?_, ?_⟩
        · rw [hunfold, if_pos hr, if_pos hstop, heq]
        · intro p hp
          exact ⟨next, List.mem_cons_self _ _, hQ p hp⟩
      · obtain ⟨new2, heq2, hQ2⟩ := ihrest (rec next out)
        refine ⟨new1 ++ new2, ?_, ?_⟩
        · rw [hunfold, if_pos hr, if_neg hstop, heq2, heq, List.append_assoc]
        · intro p hp
          rcases List.mem_append.mp hp with hp | hp
          · exact ⟨next, List.mem_cons_self _ _, hQ p hp⟩
          · obtain ⟨n, hn, hq⟩ := hQ2 p hp
            exact ⟨n, List.mem_cons_of_mem _ hn, hq⟩
    · obtain ⟨new2, heq2, hQ2⟩ := ihrest out
      refine ⟨new2, by rw [hunfold, if_neg hr, heq2], ?_⟩
      intro p hp
      obtain ⟨n, hn, hq⟩ := hQ2 p hp
      exact ⟨n, List.mem_cons_of_mem _ hn, hq⟩

theorem fapNodeF_sound (g : Graph) (reachable : List String)
    (maxPaths maxDepth : Int) (target : String) :
    ∀ (fuel : Nat) (start : String) (cp visited : List String)
      (out : List (List String)),
      cp.Nodup → (∀ x ∈ cp, x ∈ visited) → target ∉ cp →
      consecEdges g (cp ++ [start]) → (∀ x ∈ cp, x ∈ reachable) →
      (maxDepth > 0 → (cp.length : Int) ≤ maxDepth) →
      ∃ new, fapNodeF g reachable maxPaths maxDepth target fuel start cp visited out
          = out ++ new ∧
        ∀ p ∈ new, EmittedOK g reachable maxDepth target cp start p := by
  intro fuel
  induction fuel with
  | zero => exact fun start cp visited out _ _ _ _ _ _ => ⟨[], by simp [fapNodeF]⟩
  | succ fuel ih =>
    intro start cp visited out h1 h2 h3 h4 h5 h6
    have hunfold : fapNodeF g reachable maxPaths maxDepth target (fuel + 1)
        start cp visited out =
        (if start = target then out ++ [cp ++ [start]]
         else if maxPaths > 0 ∧ (out.length : Int) ≥ maxPaths then out
         else if start ∉ reachable then out
         else if maxDepth > 0 ∧ (cp.length : Int) ≥ maxDepth then out
         else if start ∈ visited then out
         else fapLoop reachable maxPaths
           (fun next acc => fapNodeF g reachable maxPaths maxDepth target fuel
             next (cp ++ [start]) (start :: visited) acc)
           (lookupG g start) out) := rfl
    by_cases b1 : start = target
    · subst b1
      refine ⟨[cp ++ [start]], by rw [hunfold, if_pos rfl], ?_⟩
      intro p hp
      simp only [List.mem_singleton] at hp
      subst hp
      refine ⟨⟨[], by simp⟩, by simp, ?_, h4, ?_, ?_⟩
      · exact List.Nodup.append h1 (List.nodup_singleton _)
          (fun x hx hy => by simp at hy; subst hy; exact h3 hx)
      · intro ht x hx
        rcases List.mem_append.mp hx with hx | hx
        · exact h5 x hx
        · simp at hx; subst hx; exact ht
      · intro hD
        have := h6 hD
        simp only [List.length_append, List.length_singleton]
        push_cast
        omega
    · by_cases b2 : maxPaths > 0 ∧ (out.length : Int) ≥ maxPaths
      · exact ⟨[], by rw [hunfold, if_neg b1, if_pos b2]; simp,
          fun p hp => absurd hp (List.not_mem_nil p)⟩
      · by_cases b3 : start ∈ reachable
        · by_cases b4 : maxDepth > 0 ∧ (cp.length : Int) ≥ maxDepth
          · exact ⟨[], by
              rw [hunfold, if_neg b1, if_neg b2, if_neg (not_not_intro b3), if_pos b4]
              simp, fun p hp => absurd hp (List.not_mem_nil p)⟩
          · by_cases b5 : start ∈ visited
            · exact ⟨[], by
                rw [hunfold, if_neg b1, if_neg b2, if_neg (not_not_intro b3),
                  if_neg b4, if_pos b5]
                simp, fun p hp => absurd hp (List.not_mem_nil p)⟩
            · have hsv : start ∉ cp := fun hin => b5 (h2 start hin)
              have hcp1 : (cp ++ [start]).Nodup :=
                List.Nodup.append h1 (List.nodup_singleton _)
                  (fun x hx hy => by simp at hy; subst hy; exact hsv hx)
              have hrec : ∀ next acc, next ∈ lookupG g start →
                  ∃ new, fapNodeF g reachable maxPaths maxDepth target fuel next
                      (cp ++ [start]) (start :: visited) acc = acc ++ new ∧
                    ∀ p ∈ new,
                      EmittedOK g reachable maxDepth target (cp ++ [start]) next p := by
                intro next acc hmem
                apply ih next (cp ++ [start]) (start :: visited) acc hcp1
                · intro x hx
                  rcases List.mem_append.mp hx with hx | hx
                  · exact List.mem_cons_of_mem _ (h2 x hx)
                  · simp at hx; subst hx; exact List.mem_cons_self _ _
                · intro hc
                  rcases List.mem_append.mp hc with hc | hc
                  · exact h3 hc
                  · simp at hc; exact b1 hc.symm
                · have := consecEdges_snoc cp h4 (show hasEdge g start next from hmem)
                  simpa [List.append_assoc] using this
                · intro x hx
                  rcases List.mem_append.mp hx with hx | hx
                  · exact h5 x hx
                  · simp at hx; subst hx; exact b3
                · intro hD
                  have hnb4 : ¬ (cp.length : Int) ≥ maxDepth := fun hge => b4 ⟨hD, hge⟩
                  simp only [List.length_append, List.length_singleton]
                  push_cast
                  omega
              obtain ⟨new, heq, hQ⟩ := fapLoop_spec
                (Q := fun next p =>
                  EmittedOK g reachable maxDepth target (cp ++ [start]) next p)
                (lookupG g start) out hrec
              refine ⟨new, ?_, ?_⟩
              · rw [hunfold, if_neg b1, if_neg b2, if_neg (not_not_intro b3),
                  if_neg b4, if_neg b5]
                exact heq
              · intro p hp
                obtain ⟨next, _, hE⟩ := hQ p hp
                obtain ⟨⟨t, ht⟩, hlast, hnodup, hconsec, hreach, hdep⟩ := hE
                exact ⟨⟨next :: t, by simp [ht]⟩, hlast, hnodup, hconsec, hreach, hdep⟩
        · exact ⟨[], by rw [hunfold, if_neg b1, if_neg b2, if_pos b3]; simp,
            fun p hp => absurd hp (List.not_mem_nil p)⟩

theorem findAllPaths_toplevel_sound (g : Graph) (reachable : List String)
    (maxPaths whyMaxDepth : Int) (start target : String) (p : List String)
    (hp : p ∈ findAllPaths start target g reachable [] [] [] maxPaths whyMaxDepth) :
    EmittedOK g reachable whyMaxDepth target [] start p := by
  obtain ⟨new, heq, hQ⟩ := fapNodeF_sound g reachable maxPaths whyMaxDepth target
    ((nodesOf g).length + 1) start [] [] []
    List.nodup_nil (by simp) (List.not_mem_nil _) trivial (by simp)
    (fun h => by simp; omega)
  simp only [findAllPaths] at hp
  rw [heq] at hp
  simp only [List.nil_append] at hp
  exact hQ p hp

/-- C2: for every graph, start, target, reachability map, and budget, every
path appended to the output by findAllPaths (called with an empty current
path, empty visited map, and empty output) starts at the start node, ends
at the target node, contains no repeated node, and every consecutive pair
of nodes in it is an edge of the graph. -/
theorem findAllPaths_emits_simple_paths (g : Graph) (reachable : List String)
    (maxPaths whyMaxDepth : Int) (start target : String) (p : List String)
    (hp : p ∈ findAllPaths start target g reachable [] [] [] maxPaths whyMaxDepth) :
    p.head? = some start ∧ p.getLast? = some target ∧ p.Nodup ∧ consecEdges g p := by
  obtain ⟨⟨t, ht⟩, hlast, hnodup, hconsec, _, _⟩ :=
    findAllPaths_toplevel_sound g reachable maxPaths whyMaxDepth start target p hp
  subst ht
  exact ⟨by simp, hlast, hnodup, hconsec⟩

theorem findAllPaths_emits_simple_paths_witness :
    (["A", "B", "D"] : List String).head? = some "A" ∧
      (["A", "B", "D"] : List String).getLast? = some "D" ∧
      (["A", "B", "D"] : List String).Nodup ∧
      consecEdges [("A", ["B", "C"]), ("B", ["D"]), ("C", ["D"])] ["A", "B", "D"] :=
  findAllPaths_emits_simple_paths [("A", ["B", "C"]), ("B", ["D"]), ("C", ["D"])]
    ["A", "B", "C", "D"] 0 0 "A" "D" ["A", "B", "D"] (by decide)

/-- C6: for every graph, start, target, and reachability map, when the
maximum hop depth D is configured positive, every path produced by
findAllPaths has at most D edges (node count at most D + 1). -/
theorem findAllPaths_respects_depth (g : Graph) (reachable : List String)
    (maxPaths whyMaxDepth : Int) (start target : String) (p : List String)
    (hD : whyMaxDepth > 0)
    (hp : p ∈ findAllPaths start target g reachable [] [] [] maxPaths whyMaxDepth) :
    (p.length : Int) ≤ whyMaxDepth + 1 := by
  obtain ⟨_, _, _, _, _, hdep⟩ :=
    findAllPaths_toplevel_sound g reachable maxPaths whyMaxDepth start target p hp
  exact hdep hD

theorem findAllPaths_respects_depth_witness :
    ((["A", "B"] : List String).length : Int) ≤ 5 + 1 :=
  findAllPaths_respects_depth [("A", ["B"])] ["A", "B"] 0 5 "A" "B" ["A", "B"]
    (by decide) (by decide)

/-- C8: for every graph, start, target, budget, and reachability map that
contains the target, every node of every path produced by findAllPaths is
a member of the reachability set. -/
theorem findAllPaths_stays_in_reachable (g : Graph) (reachable : List String)
    (maxPaths whyMaxDepth : Int) (start target : String) (p : List String)
    (ht : target ∈ reachable)
    (hp : p ∈ findAllPaths start target g reachable [] [] [] maxPaths whyMaxDepth) :
    ∀ x ∈ p, x ∈ reachable := by
  obtain ⟨_, _, _, _, hreach, _⟩ :=
    findAllPaths_toplevel_sound g reachable maxPaths whyMaxDepth start target p hp
  exact hreach ht

theorem findAllPaths_stays_in_reachable_witness :
    ("B" : String) ∈ (["A", "B", "C", "D"] : List String) :=
  findAllPaths_stays_in_reachable [("A", ["B", "C"]), ("B", ["D"]), ("C", ["D"])]
    ["A", "B", "C", "D"] 0 0 "A" "D" ["A", "B", "D"] (by decide) (by decide)
    "B" (by decide)

/-- C10: for every graph and every configuration (budget, depth limit,
reachability map, visited set, existing output), a call of findAllPaths
whose start node equals the target appends exactly the single-node path
[target] to the output, because the target-equality test precedes the
result-budget test, the reachability test, the depth test, and the visited
test. -/
theorem findAllPaths_start_eq_target (g : Graph) (reachable : List String)
    (maxPaths whyMaxDepth : Int) (target : String) (visited : List String)
    (out : List (List String)) :
    findAllPaths target target g reachable [] visited out maxPaths whyMaxDepth
      = out ++ [[target]] := by
  simp [findAllPaths, fapNodeF]

/-! ## findAllPaths: result budget and completeness -/

theorem mem_of_getLast?_eq {l : List String} {a : String}
    (h : l.getLast? = some a) : a ∈ l := by
  induction l with
  | nil => simp at h
  | cons x rest ih =>
    cases rest with
    | nil => simp at h; simp [h]
    | cons y rest2 =>
      rw [List.getLast?_cons_cons] at h
      exact List.mem_cons_of_mem _ (ih h)

theorem fapNodeF_mono (g : Graph) (reachable : List String)
    (maxPaths maxDepth : Int) (target : String) :
    ∀ (fuel : Nat) (start : String) (cp visited : List String)
      (out : List (List String)),
      ∃ new, fapNodeF g reachable maxPaths maxDepth target fuel start cp visited out
        = out ++ new := by
  intro fuel
  induction fuel with
  | zero => exact fun start cp visited out => ⟨[], by simp [fapNodeF]⟩
  | succ fuel ih =>
    intro start cp visited out
    have hunfold : fapNodeF g reachable maxPaths maxDepth target (fuel + 1)
        start cp visited out =
        (if start = target then out ++ [cp ++ [start]]
         else if maxPaths > 0 ∧ (out.length : Int) ≥ maxPaths then out
         else if start ∉ reachable then out
         else if maxDepth > 0 ∧ (cp.length : Int) ≥ maxDepth then out
         else if start ∈ visited then out
         else fapLoop reachable maxPaths
           (fun next acc => fapNodeF g reachable maxPaths maxDepth target fuel
             next (cp ++ [start]) (start :: visited) acc)
           (lookupG g start) out) := rfl
    by_cases b1 : start = target
    · exact ⟨[cp ++ [start]], by rw [hunfold, if_pos b1]⟩
    · by_cases b2 : maxPaths > 0 ∧ (out.length : Int) ≥ maxPaths
      · exact ⟨[], by rw [hunfold, if_neg b1, if_pos b2]; simp⟩
      · by_cases b3 : start ∉ reachable
        · exact ⟨[], by rw [hunfold, if_neg b1, if_neg b2, if_pos b3]; simp⟩
        · by_cases b4 : maxDepth > 0 ∧ (cp.length : Int) ≥ maxDepth
          · exact ⟨[], by rw [hunfold, if_neg b1, if_neg b2, if_neg b3, if_pos b4]; simp⟩
          · by_cases b5 : start ∈ visited
            · exact ⟨[], by
                rw [hunfold, if_neg b1, if_neg b2, if_neg b3, if_neg b4, if_pos b5]
                simp⟩
            · obtain ⟨new, heq, _⟩ := fapLoop_spec (Q := fun _ _ => True)
                (lookupG g start) out
                (fun next acc _ => by
                  obtain ⟨m, hm⟩ := ih next (cp ++ [start]) (start :: visited) acc
                  exact ⟨m, hm, fun _ _ => trivial⟩)
              exact ⟨new, by
                rw [hunfold, if_neg b1, if_neg b2, if_neg b3, if_neg b4, if_neg b5]
                exact heq⟩

theorem fapLoop_budget {reachable : List String} {maxPaths : Int}
    {rec : String → List (List String) → List (List String)}
    (hmp : maxPaths > 0)
    (hrec : ∀ next acc, (acc.length : Int) < maxPaths →
      ((rec next acc).length : Int) ≤ maxPaths) :
    ∀ (succs : List String) (out : List (List String)),
      (out.length : Int) < maxPaths →
      ((fapLoop reachable maxPaths rec succs out).length : Int) ≤ maxPaths := by
  intro succs
  induction succs with
  | nil => intro out h; simp [fapLoop]; omega
  | cons next rest ih =>
    intro out h
    have hunfold : fapLoop reachable maxPaths rec (next :: rest) out =
        if next ∈ reachable then
          (if maxPaths > 0 ∧ ((rec next out).length : Int) ≥ maxPaths then rec next out
           else fapLoop reachable maxPaths rec rest (rec next out))
        else fapLoop reachable maxPaths rec rest out := rfl
    rw [hunfold]
    by_cases hr : next ∈ reachable
    · rw [if_pos hr]
      by_cases hstop : maxPaths > 0 ∧ ((rec next out).length : Int) ≥ maxPaths
      · rw [if_pos hstop]
        exact hrec next out h
      · rw [if_neg hstop]
        apply ih
        have : ¬ ((rec next out).length : Int) ≥ maxPaths := fun hge => hstop ⟨hmp, hge⟩
        omega
    · rw [if_neg hr]
      exact ih out h

theorem fapNodeF_budget (g : Graph) (reachable : List String)
    (maxPaths maxDepth : Int) (target : String) (hmp : maxPaths > 0) :
    ∀ (fuel : Nat) (start : String) (cp visited : List String)
      (out : List (List String)),
      (out.length : Int) < maxPaths →
      ((fapNodeF g reachable maxPaths maxDepth target fuel start cp visited
        out).length : Int) ≤ maxPaths := by
  intro fuel
  induction fuel with
  | zero => intro start cp visited out h; simp [fapNodeF]; omega
  | succ fuel ih =>
    intro start cp visited out h
    have hunfold : fapNodeF g reachable maxPaths maxDepth target (fuel + 1)
        start cp visited out =
        (if start = target then out ++ [cp ++ [start]]
         else if maxPaths > 0 ∧ (out.length : Int) ≥ maxPaths then out
         else if start ∉ reachable then out
         else if maxDepth > 0 ∧ (cp.length : Int) ≥ maxDepth then out
         else if start ∈ visited then out
         else fapLoop reachable maxPaths
           (fun next acc => fapNodeF g reachable maxPaths maxDepth target fuel
             next (cp ++ [start]) (start :: visited) acc)
           (lookupG g start) out) := rfl
    rw [hunfold]
    by_cases b1 : start = target
    · rw [if_pos b1]
      simp only [List.length_append, List.length_singleton]
      push_cast
      omega
    · rw [if_neg b1]
      by_cases b2 : maxPaths > 0 ∧ (out.length : Int) ≥ maxPaths
      · rw [if_pos b2]; omega
      · rw [if_neg b2]
        by_cases b3 : start ∉ reachable
        · rw [if_pos b3]; omega
        · rw [if_neg b3]
          by_cases b4 : maxDepth > 0 ∧ (cp.length : Int) ≥ maxDepth
          · rw [if_pos b4]; omega
          · rw [if_neg b4]
            by_cases b5 : start ∈ visited
            · rw [if_pos b5]; omega
            · rw [if_neg b5]
              exact fapLoop_budget hmp
                (fun next acc ha => ih next (cp ++ [start]) (start :: visited) acc ha)
                (lookupG g start) out h

theorem fapLoop_complete {reachable : List String} {maxPaths : Int}
    {rec : String → List (List String) → List (List String)}
    (hmp : maxPaths ≤ 0)
    (hmono : ∀ n acc, ∃ l, rec n acc = acc ++ l)
    {next : String} {P : List String} (hnr : next ∈ reachable)
    (hP : ∀ acc, P ∈ rec next acc) :
    ∀ (succs : List String) (out : List (List String)), next ∈ succs →
      P ∈ fapLoop reachable maxPaths rec succs out := by
  intro succs
  induction succs with
  | nil => intro out h; simp at h
  | cons y rest ih =>
    intro out hmem
    have hunfold : fapLoop reachable maxPaths rec (y :: rest) out =
        if y ∈ reachable then
          (if maxPaths > 0 ∧ ((rec y out).length : Int) ≥ maxPaths then rec y out
           else fapLoop reachable maxPaths rec rest (rec y out))
        else fapLoop reachable maxPaths rec rest out := rfl
    rw [hunfold]
    by_cases hy : y ∈ reachable
    · rw [if_pos hy]
      have hstop : ¬ (maxPaths > 0 ∧ ((rec y out).length : Int) ≥ maxPaths) := by
        rintro ⟨h1, _⟩; omega
      rw [if_neg hstop]
      rcases List.mem_cons.mp hmem with he | hrest
      · subst he
        obtain ⟨l, hl, _⟩ := fapLoop_spec (Q := fun _ _ => True) rest (rec next out)
          (fun n a _ => by
            obtain ⟨m, hm⟩ := hmono n a
            exact ⟨m, hm, fun _ _ => trivial⟩)
        rw [hl]
        exact List.mem_append_left _ (hP out)
      · exact ih (rec y out) hrest
    · rw [if_neg hy]
      rcases List.mem_cons.mp hmem with he | hrest
      · exact absurd (he ▸ hnr) hy
      · exact ih out hrest

theorem fapNodeF_complete (g : Graph) (reachable : List String)
    (maxPaths maxDepth : Int) (target : String) (hmp : maxPaths ≤ 0) :
    ∀ (fuel : Nat) (start : String) (q cp visited : List String)
      (out : List (List String)),
      fuel ≥ unseenCount (keysOf g) visited + 1 →
      (∀ x, x ∈ visited ↔ x ∈ cp) →
      (cp ++ start :: q).Nodup →
      consecEdges g (start :: q) →
      (start :: q).getLast? = some target →
      (∀ x ∈ start :: q, x ∈ reachable) →
      (maxDepth > 0 → (cp.length : Int) + ((start :: q).length : Int) ≤ maxDepth + 1) →
      cp ++ start :: q ∈
        fapNodeF g reachable maxPaths maxDepth target fuel start cp visited out := by
  intro fuel
  induction fuel with
  | zero =>
    intro start q cp visited out hfuel
    omega
  | succ fuel ih =>
    intro start q cp visited out hfuel hvis hnodup hconsec hlast hreach hdepth
    have hunfold : fapNodeF g reachable maxPaths maxDepth target (fuel + 1)
        start cp visited out =
        (if start = target then out ++ [cp ++ [start]]
         else if maxPaths > 0 ∧ (out.length : Int) ≥ maxPaths then out
         else if start ∉ reachable then out
         else if maxDepth > 0 ∧ (cp.length : Int) ≥ maxDepth then out
         else if start ∈ visited then out
         else fapLoop reachable maxPaths
           (fun next acc => fapNodeF g reachable maxPaths maxDepth target fuel
             next (cp ++ [start]) (start :: visited) acc)
           (lookupG g start) out) := rfl
    rw [hunfold]
    cases q with
    | nil =>
      have hst : start = target := by simpa using hlast
      rw [if_pos hst, hst]
      simp
    | cons next q2 =>
      have hlast2 : (next :: q2).getLast? = some target := by
        rw [List.getLast?_cons_cons] at hlast
        exact hlast
      have htail_nodup : (start :: next :: q2).Nodup := hnodup.of_append_right
      have hstart_notin : start ∉ next :: q2 := (List.nodup_cons.mp htail_nodup).1
      have hne : start ≠ target := fun heq =>
        hstart_notin (heq ▸ mem_of_getLast?_eq hlast2)
      rw [if_neg hne]
      have hb2 : ¬ (maxPaths > 0 ∧ (out.length : Int) ≥ maxPaths) := by
        rintro ⟨h1, _⟩; omega
      rw [if_neg hb2]
      have hs_r : start ∈ reachable := hreach start (List.mem_cons_self _ _)
      rw [if_neg (not_not_intro hs_r)]
      have hb4 : ¬ (maxDepth > 0 ∧ (cp.length : Int) ≥ maxDepth) := by
        rintro ⟨hD, hge⟩
        have := hdepth hD
        simp only [List.length_cons] at this
        push_cast at this
        omega
      rw [if_neg hb4]
      have hs_nv : start ∉ visited := by
        intro hv
        exact (List.disjoint_of_nodup_append hnodup) ((hvis start).mp hv)
          (List.mem_cons_self _ _)
      rw [if_neg hs_nv]
      have hedge : next ∈ lookupG g start := hconsec.1
      have hkey : start ∈ keysOf g :=
        lookupG_ne_nil_mem_keys (List.ne_nil_of_mem hedge)
      apply fapLoop_complete hmp
        (fun n acc => fapNodeF_mono g reachable maxPaths maxDepth target fuel n
          (cp ++ [start]) (start :: visited) acc)
        (hreach next (by simp)) ?_ (lookupG g start) out hedge
      intro acc
      have hres := ih next q2 (cp ++ [start]) (start :: visited) acc ?_ ?_ ?_ ?_ ?_ ?_ ?_
      · have hsh : cp ++ start :: next :: q2 = (cp ++ [start]) ++ next :: q2 := by simp
        rw [hsh]
        exact hres
      · have hlt : unseenCount (keysOf g) (start :: visited) <
            unseenCount (keysOf g) visited :=
          unseenCount_lt hkey hs_nv (List.mem_cons_self _ _)
            (fun x hx => List.mem_cons_of_mem _ hx)
        omega
      · intro x
        simp only [List.mem_cons, List.mem_append, List.mem_singleton, hvis x]
        tauto
      · have hsh : cp ++ start :: next :: q2 = (cp ++ [start]) ++ next :: q2 := by simp
        rw [← hsh]
        exact hnodup
      · exact hconsec.2
      · exact hlast2
      · exact fun x hx => hreach x (List.mem_cons_of_mem _ hx)
      · intro hD
        have h9 := hdepth hD
        rw [List.length_cons, List.length_cons] at h9
        simp only [List.length_append, List.length_singleton, List.length_cons,
          List.length_nil]
        push_cast at h9 ⊢
        omega

/-- C5 (counterexample to the claim as stated): for an arbitrary
reachability map the second half of the claim fails.  With graph A→T and
the empty reachability map, maxPaths = 0 (unlimited) and no depth limit,
the simple path [A, T] from start to target exists but findAllPaths
produces no path at all, because the reachability test prunes A. -/
theorem findAllPaths_unlimited_counterexample :
    findAllPaths "A" "T" [("A", ["T"])] [] [] [] [] 0 0 = [] ∧
      IsSimplePath [("A", ["T"])] "A" "T" ["A", "T"] := by
  constructor
  · decide
  · decide

/-- C5 (amended): for every graph, start, target, and reachability map,
findAllPaths called with an empty output and maxPaths = N > 0 leaves at
most N paths in the output; and when maxPaths is zero or negative the
budget is unlimited, so every simple start-to-target path that is within
the depth limit and all of whose nodes are members of the reachability
map is produced. -/
theorem findAllPaths_budget_and_complete (g : Graph) (reachable : List String)
    (maxPaths whyMaxDepth : Int) (start target : String) :
    (maxPaths > 0 →
      ((findAllPaths start target g reachable [] [] [] maxPaths
        whyMaxDepth).length : Int) ≤ maxPaths) ∧
    (maxPaths ≤ 0 → ∀ p, IsSimplePath g start target p →
      (∀ x ∈ p, x ∈ reachable) →
      (whyMaxDepth > 0 → (p.length : Int) ≤ whyMaxDepth + 1) →
      p ∈ findAllPaths start target g reachable [] [] [] maxPaths whyMaxDepth) := by
  constructor
  · intro hmp
    exact fapNodeF_budget g reachable maxPaths whyMaxDepth target hmp
      ((nodesOf g).length + 1) start [] [] [] (by simp; omega)
  · intro hmp p hsp hreach hdep
    obtain ⟨hhead, hlast, hnodup, hconsec⟩ := hsp
    cases p with
    | nil => simp at hhead
    | cons a q =>
      have ha : a = start := by simpa using hhead
      subst ha
      have hfuel : (nodesOf g).length + 1 ≥ unseenCount (keysOf g) [] + 1 := by
        have h1 := unseenCount_le (keysOf g) []
        have h2 : (keysOf g).length ≤ (nodesOf g).length := by
          simp [nodesOf]
        omega
      have hres := fapNodeF_complete g reachable maxPaths whyMaxDepth target hmp
        ((nodesOf g).length + 1) a q [] [] [] hfuel (by simp)
        (by simpa using hnodup) hconsec hlast hreach
        (by intro hD; have := hdep hD; simpa using this)
      simpa [findAllPaths] using hres

theorem findAllPaths_budget_and_complete_witness :
    ((findAllPaths "A" "D" [("A", ["B", "C"]), ("B", ["D"]), ("C", ["D"])]
        ["A", "B", "C", "D"] [] [] [] 1 0).length : Int) ≤ 1 ∧
    ["A", "B", "D"] ∈ findAllPaths "A" "D"
        [("A", ["B", "C"]), ("B", ["D"]), ("C", ["D"])]
        ["A", "B", "C", "D"] [] [] [] 0 0 :=
  ⟨(findAllPaths_budget_and_complete [("A", ["B", "C"]), ("B", ["D"]), ("C", ["D"])]
      ["A", "B", "C", "D"] 1 0 "A" "D").1 (by decide),
   (findAllPaths_budget_and_complete [("A", ["B", "C"]), ("B", ["D"]), ("C", ["D"])]
      ["A", "B", "C", "D"] 0 0 "A" "D").2 (by decide) ["A", "B", "D"]
     (by decide) (by decide) (by decide)⟩

/-! ## Termination: fuel irrelevance of the fuelled embeddings -/

theorem fapLoop_congr {reachable : List String} {maxPaths : Int}
    {rec1 rec2 : String → List (List String) → List (List String)} :
    ∀ (succs : List String) (out : List (List String)),
      (∀ n acc, n ∈ succs → rec1 n acc = rec2 n acc) →
      fapLoop reachable maxPaths rec1 succs out
        = fapLoop reachable maxPaths rec2 succs out := by
  intro succs
  induction succs with
  | nil => intro out h; rfl
  | cons next rest ih =>
    intro out h
    have h1 : rec1 next out = rec2 next out := h next out (List.mem_cons_self _ _)
    have hrest : ∀ n acc, n ∈ rest → rec1 n acc = rec2 n acc :=
      fun n acc hn => h n acc (List.mem_cons_of_mem _ hn)
    show (if next ∈ reachable then
        (if maxPaths > 0 ∧ ((rec1 next out).length : Int) ≥ maxPaths then rec1 next out
         else fapLoop reachable maxPaths rec1 rest (rec1 next out))
      else fapLoop reachable maxPaths rec1 rest out) = _
    rw [h1, ih (rec2 next out) hrest, ih out hrest]
    rfl

theorem fapNodeF_fuel_irrelevant (g : Graph) (reachable : List String)
    (maxPaths maxDepth : Int) (target : String) :
    ∀ (f1 f2 : Nat) (start : String) (cp visited : List String)
      (out : List (List String)),
      f1 ≥ unseenCount (keysOf g) visited + 1 →
      f2 ≥ unseenCount (keysOf g) visited + 1 →
      fapNodeF g reachable maxPaths maxDepth target f1 start cp visited out
        = fapNodeF g reachable maxPaths maxDepth target f2 start cp visited out := by
  intro f1
  induction f1 with
  | zero => intro f2 start cp visited out h1; omega
  | succ s1 ih =>
    intro f2 start cp visited out h1 h2
    cases f2 with
    | zero => omega
    | succ s2 =>
      show (if start = target then out ++ [cp ++ [start]]
         else if maxPaths > 0 ∧ (out.length : Int) ≥ maxPaths then out
         else if start ∉ reachable then out
         else if maxDepth > 0 ∧ (cp.length : Int) ≥ maxDepth then out
         else if start ∈ visited then out
         else fapLoop reachable maxPaths
           (fun next acc => fapNodeF g reachable maxPaths maxDepth target s1
             next (cp ++ [start]) (start :: visited) acc)
           (lookupG g start) out) =
        (if start = target then out ++ [cp ++ [start]]
         else if maxPaths > 0 ∧ (out.length : Int) ≥ maxPaths then out
         else if start ∉ reachable then out
         else if maxDepth > 0 ∧ (cp.length : Int) ≥ maxDepth then out
         else if start ∈ visited then out
         else fapLoop reachable maxPaths
           (fun next acc => fapNodeF g reachable maxPaths maxDepth target s2
             next (cp ++ [start]) (start :: visited) acc)
           (lookupG g start) out)
      by_cases b5 : start ∈ visited
      · simp only [if_pos b5]
      · simp only [if_neg b5]
        have hloop : fapLoop reachable maxPaths
            (fun next acc => fapNodeF g reachable maxPaths maxDepth target s1
              next (cp ++ [start]) (start :: visited) acc)
            (lookupG g start) out =
          fapLoop reachable maxPaths
            (fun next acc => fapNodeF g reachable maxPaths maxDepth target s2
              next (cp ++ [start]) (start :: visited) acc)
            (lookupG g start) out := by
          apply fapLoop_congr
          intro n acc hn
          have hkey : start ∈ keysOf g :=
            lookupG_ne_nil_mem_keys (List.ne_nil_of_mem hn)
          have hlt : unseenCount (keysOf g) (start :: visited) <
              unseenCount (keysOf g) visited :=
            unseenCount_lt hkey b5 (List.mem_cons_self _ _)
              (fun x hx => List.mem_cons_of_mem _ hx)
          exact ih s2 n (cp ++ [start]) (start :: visited) acc (by omega) (by omega)
        rw [hloop]

theorem glcLoop_congr {rec1 rec2 : String → Memo → Chain × Memo} :
    ∀ (deps : List String) (best : Chain) (memo : Memo),
      (∀ d m, d ∈ deps → rec1 d m = rec2 d m) →
      glcLoop rec1 deps best memo = glcLoop rec2 deps best memo := by
  intro deps
  induction deps with
  | nil => intro best memo h; rfl
  | cons dep rest ih =>
    intro best memo h
    show glcLoop rec1 rest
        (if (rec1 dep memo).1.length > best.length then (rec1 dep memo).1 else best)
        (rec1 dep memo).2 = _
    rw [h dep memo (List.mem_cons_self _ _),
      ih _ _ (fun d m hd => h d m (List.mem_cons_of_mem _ hd))]
    rfl

theorem glcF_succ_eq (g : Graph) (s : Nat) (dep : String) (chain : Chain)
    (memo : Memo) :
    glcF g (s + 1) dep chain memo =
      (match lookupM memo dep with
        | some c => (c, memo)
        | none =>
          if lookupG g dep = [] then ([dep], insertM memo dep [dep])
          else if dep ∈ chain then ([], memo)
          else
            let bm := glcLoop (fun d m => glcF g s d (chain ++ [dep]) m)
              (lookupG g dep) [] memo
            (dep :: bm.1, insertM bm.2 dep (dep :: bm.1))) := rfl

theorem glcF_fuel_irrelevant (g : Graph) :
    ∀ (f1 f2 : Nat) (dep : String) (chain : Chain) (memo : Memo),
      f1 ≥ unseenCount (keysOf g) chain + 1 →
      f2 ≥ unseenCount (keysOf g) chain + 1 →
      glcF g f1 dep chain memo = glcF g f2 dep chain memo := by
  intro f1
  induction f1 with
  | zero => intro f2 dep chain memo h1; omega
  | succ s1 ih =>
    intro f2 dep chain memo h1 h2
    cases f2 with
    | zero => omega
    | succ s2 =>
      rw [glcF_succ_eq, glcF_succ_eq]
      cases hi : lookupM memo dep with
      | some c => simp only [hi]
      | none =>
        simp only [hi]
        by_cases hleaf : lookupG g dep = []
        · simp only [if_pos hleaf]
        · simp only [if_neg hleaf]
          by_cases hin : dep ∈ chain
          · simp only [if_pos hin]
          · simp only [if_neg hin]
            have hkey : dep ∈ keysOf g := lookupG_ne_nil_mem_keys hleaf
            have hlt : unseenCount (keysOf g) (chain ++ [dep]) <
                unseenCount (keysOf g) chain :=
              unseenCount_lt hkey hin (by simp)
                (fun x hx => by simp [hx])
            have hloop : glcLoop (fun d m => glcF g s1 d (chain ++ [dep]) m)
                (lookupG g dep) [] memo =
              glcLoop (fun d m => glcF g s2 d (chain ++ [dep]) m)
                (lookupG g dep) [] memo :=
              glcLoop_congr _ _ _
                (fun d m _ => ih s2 d (chain ++ [dep]) m (by omega) (by omega))
            simp only [hloop]

theorem unseenCount_keys_le_nodes (g : Graph) (v : List String) :
    unseenCount (keysOf g) v ≤ (nodesOf g).length := by
  have h1 := unseenCount_le (keysOf g) v
  have h2 : (keysOf g).length ≤ (nodesOf g).length := by simp [nodesOf]
  omega

theorem getLongestChain_head_lemma (g : Graph) (n : String) :
    (getLongestChain n g [] []).head? = some n := by
  show (glcF g ((nodesOf g).length + 1) n [] []).1.head? = some n
  rw [glcF_succ_eq]
  simp only [lookupM]
  by_cases hleaf : lookupG g n = []
  · simp [hleaf]
  · simp [hleaf]

/-- C9: on every finite graph, including graphs with cycles, findAllPaths
and getLongestChain terminate and return results rather than errors.
Termination is witnessed twice over: the fuelled embeddings are total
functions, and any fuel at least the node count plus one computes the same
result (the recursion provably stops within that bound, by the visited
marking in findAllPaths and the ancestor-chain check in getLongestChain).
When no path exists (in particular when the target is absent or the graph
is empty) findAllPaths leaves the output empty rather than failing, and
getLongestChain always returns a chain headed by its argument rather than
failing. -/
theorem traversals_terminate_and_total (g : Graph) (reachable : List String)
    (maxPaths whyMaxDepth : Int) (start target n : String) :
    (∀ extra : Nat,
      fapNodeF g reachable maxPaths whyMaxDepth target
          ((nodesOf g).length + 1 + extra) start [] [] []
        = findAllPaths start target g reachable [] [] [] maxPaths whyMaxDepth) ∧
    (∀ extra : Nat,
      (glcF g ((nodesOf g).length + 1 + extra) n [] []).1
        = getLongestChain n g [] []) ∧
    ((¬ ∃ p, IsSimplePath g start target p) →
      findAllPaths start target g reachable [] [] [] maxPaths whyMaxDepth = []) ∧
    (getLongestChain n g [] []).head? = some n := by
  refine ⟨?_, ?_, ?_, getLongestChain_head_lemma g n⟩
  · intro extra
    have hb := unseenCount_keys_le_nodes g []
    exact fapNodeF_fuel_irrelevant g reachable maxPaths whyMaxDepth target
      ((nodesOf g).length + 1 + extra) ((nodesOf g).length + 1) start [] [] []
      (by omega) (by omega)
  · intro extra
    have hb := unseenCount_keys_le_nodes g []
    have h := glcF_fuel_irrelevant g ((nodesOf g).length + 1 + extra)
      ((nodesOf g).length + 1) n [] [] (by omega) (by omega)
    show (glcF g ((nodesOf g).length + 1 + extra) n [] []).1
      = (glcF g ((nodesOf g).length + 1) n [] []).1
    rw [h]
  · intro hno
    cases hnew : findAllPaths start target g reachable [] [] [] maxPaths whyMaxDepth with
    | nil => rfl
    | cons p rest =>
      have hp : p ∈ findAllPaths start target g reachable [] [] [] maxPaths
          whyMaxDepth := by
        rw [hnew]; exact List.mem_cons_self _ _
      obtain ⟨⟨t, ht⟩, hlast, hnodup, hconsec, _, _⟩ :=
        findAllPaths_toplevel_sound g reachable maxPaths whyMaxDepth start target p hp
      subst ht
      exact absurd ⟨_, ⟨by simp, hlast, hnodup, hconsec⟩⟩ hno

theorem traversals_terminate_and_total_witness :
    findAllPaths "A" "C" [("A", ["B"])] ["A", "B"] [] [] [] 0 0 = [] :=
  (traversals_terminate_and_total [("A", ["B"])] ["A", "B"] 0 0 "A" "C" "A").2.2.1
    (by
      rintro ⟨p, hh, hl, hn, hc⟩
      cases p with
      | nil => simp at hh
      | cons a q =>
        have ha : a = "A" := by simpa using hh
        subst ha
        cases q with
        | nil =>
          simp only [List.getLast?_singleton, Option.some.injEq] at hl
          exact absurd hl (by decide)
        | cons x q2 =>
          have hx : x = "B" := by
            have hm : x ∈ lookupG [("A", ["B"])] "A" := hc.1
            rw [(by decide : lookupG [("A", ["B"])] "A" = ["B"])] at hm
            simpa using hm
          subst hx
          cases q2 with
          | nil =>
            rw [List.getLast?_cons_cons] at hl
            simp only [List.getLast?_singleton, Option.some.injEq] at hl
            exact absurd hl (by decide)
          | cons y q3 =>
            have hm : y ∈ lookupG [("A", ["B"])] "B" := hc.2.1
            rw [(by decide : lookupG [("A", ["B"])] "B" = ([] : List String))] at hm
            exact absurd hm (List.not_mem_nil y))

/-! ## computeReachableToTarget: the reverse adjacency map -/

theorem lookupG_updateG_same (rev : Graph) (k v : String) :
    lookupG (updateG rev k v) k = lookupG rev k ++ [v] := by
  induction rev with
  | nil => simp [updateG, lookupG]
  | cons e rest ih =>
    by_cases hk : e.1 = k
    · simp [updateG, lookupG, hk]
    · simp [updateG, lookupG, hk, ih]

theorem lookupG_updateG_other (rev : Graph) {k k2 : String} (v : String)
    (h : k2 ≠ k) : lookupG (updateG rev k v) k2 = lookupG rev k2 := by
  have hkk2 : ¬ k = k2 := fun hc => h hc.symm
  induction rev with
  | nil => simp [updateG, lookupG, hkk2]
  | cons e rest ih =>
    by_cases hk : e.1 = k
    · simp [updateG, lookupG, hk, hkk2]
    · by_cases hk2 : e.1 = k2
      · simp [updateG, lookupG, hk, hk2, h]
      · simp [updateG, lookupG, hk, hk2, ih]

theorem mem_lookupG_foldTos (from2 : String) :
    ∀ (tos : List String) (rev : Graph) (a b : String),
      a ∈ lookupG (tos.foldl (fun r t => updateG r t from2) rev) b ↔
        (a ∈ lookupG rev b ∨ (a = from2 ∧ b ∈ tos)) := by
  intro tos
  induction tos with
  | nil => intro rev a b; simp
  | cons t tos ih =>
    intro rev a b
    rw [List.foldl_cons, ih]
    by_cases hb : b = t
    · subst hb
      rw [lookupG_updateG_same]
      simp only [List.mem_append, List.mem_singleton, List.mem_cons]
      tauto
    · rw [lookupG_updateG_other _ _ hb]
      simp only [List.mem_cons]
      constructor
      · rintro (h | ⟨h1, h2⟩)
        · exact Or.inl h
        · exact Or.inr ⟨h1, Or.inr h2⟩
      · rintro (h | ⟨h1, h2 | h2⟩)
        · exact Or.inl h
        · exact absurd h2 hb
        · exact Or.inr ⟨h1, h2⟩

theorem mem_lookupG_buildReverse (g : Graph) (a b : String) :
    a ∈ lookupG (buildReverse g) b ↔ ∃ e ∈ g, e.1 = a ∧ b ∈ e.2 := by
  have main : ∀ (gs : Graph) (rev : Graph),
      a ∈ lookupG (gs.foldl
        (fun r e => e.2.foldl (fun r2 t => updateG r2 t e.1) r) rev) b ↔
      (a ∈ lookupG rev b ∨ ∃ e ∈ gs, e.1 = a ∧ b ∈ e.2) := by
    intro gs
    induction gs with
    | nil => intro rev; simp
    | cons e gs ih =>
      intro rev
      rw [List.foldl_cons, ih, mem_lookupG_foldTos]
      simp only [List.mem_cons]
      constructor
      · rintro ((h | ⟨h1, h2⟩) | ⟨f, hf, h1, h2⟩)
        · exact Or.inl h
        · exact Or.inr ⟨e, Or.inl rfl, h1.symm, h2⟩
        · exact Or.inr ⟨f, Or.inr hf, h1, h2⟩
      · rintro (h | ⟨f, hf | hf, h1, h2⟩)
        · exact Or.inl (Or.inl h)
        · subst hf; exact Or.inl (Or.inr ⟨h1.symm, h2⟩)
        · exact Or.inr ⟨f, hf, h1, h2⟩
  have := main g []
  simpa [buildReverse, lookupG] using this

theorem mem_lookupG_iff_exists {g : Graph} (hnd : (keysOf g).Nodup)
    (a b : String) : b ∈ lookupG g a ↔ ∃ e ∈ g, e.1 = a ∧ b ∈ e.2 := by
  induction g with
  | nil => simp [lookupG]
  | cons f rest ih =>
    have hnd2 : (keysOf rest).Nodup := (List.nodup_cons.mp hnd).2
    have hf : f.1 ∉ keysOf rest := (List.nodup_cons.mp hnd).1
    by_cases ha : f.1 = a
    · simp only [lookupG, if_pos ha, List.mem_cons]
      constructor
      · intro h
        exact ⟨f, Or.inl rfl, ha, h⟩
      · rintro ⟨e, he | he, h1, h2⟩
        · subst he; exact h2
        · exfalso
          apply hf
          rw [ha, ← h1]
          exact List.mem_map_of_mem Prod.fst he
    · simp only [lookupG, if_neg ha, List.mem_cons]
      rw [ih hnd2]
      constructor
      · rintro ⟨e, he, h1, h2⟩
        exact ⟨e, Or.inr he, h1, h2⟩
      · rintro ⟨e, he | he, h1, h2⟩
        · subst he; exact absurd h1 ha
        · exact ⟨e, he, h1, h2⟩

theorem mem_buildReverse_iff_hasEdge {g : Graph} (hnd : (keysOf g).Nodup)
    (a b : String) : a ∈ lookupG (buildReverse g) b ↔ hasEdge g a b := by
  rw [mem_lookupG_buildReverse]
  exact (mem_lookupG_iff_exists hnd a b).symm

theorem reachesVia_snoc {adj : String → List String} {a b c : String}
    (h : ReachesVia adj a b) (he : c ∈ adj b) : ReachesVia adj a c := by
  induction h with
  | refl n => exact ReachesVia.head he (ReachesVia.refl c)
  | head hab _ ih => exact ReachesVia.head hab (ih he)

theorem reachesVia_mem_closed {adj : String → List String} {R : List String}
    (hclosed : ∀ x ∈ R, ∀ y ∈ adj x, y ∈ R) {s x : String} (hs : s ∈ R)
    (h : ReachesVia adj s x) : x ∈ R := by
  induction h with
  | refl => exact hs
  | head hab _ ih => exact ih (hclosed _ hs _ hab)

theorem reachesVia_rev_iff {g : Graph} (hnd : (keysOf g).Nodup)
    {a b : String} :
    ReachesVia (fun cur => lookupG (buildReverse g) cur) b a ↔ Reaches g a b := by
  constructor
  · intro h
    induction h with
    | refl n => exact ReachesVia.refl n
    | head hxy _ ih =>
      exact reachesVia_snoc ih ((mem_buildReverse_iff_hasEdge hnd _ _).mp hxy)
  · intro h
    induction h with
    | refl n => exact ReachesVia.refl n
    | head hxy _ ih =>
      exact reachesVia_snoc ih ((mem_buildReverse_iff_hasEdge hnd _ _).mpr hxy)

/-! ## Generic BFS worklist correctness -/

theorem enqueueNew_spec :
    ∀ (xs r q : List String),
      ∃ add, (enqueueNew xs (r, q)).1 = r ++ add ∧
        (enqueueNew xs (r, q)).2 = q ++ add ∧ add.Nodup ∧
        (∀ a ∈ add, a ∈ xs ∧ a ∉ r) ∧ (∀ x ∈ xs, x ∈ r ++ add) := by
  intro xs
  induction xs with
  | nil => exact fun r q => ⟨[], by simp [enqueueNew]⟩
  | cons x xs ih =>
    intro r q
    by_cases hx : x ∈ r
    · have he : enqueueNew (x :: xs) (r, q) = enqueueNew xs (r, q) := by
        simp [enqueueNew, hx]
      obtain ⟨add, h1, h2, h3, h4, h5⟩ := ih r q
      refine ⟨add, by rw [he]; exact h1, by rw [he]; exact h2, h3, ?_, ?_⟩
      · exact fun a ha => ⟨List.mem_cons_of_mem _ (h4 a ha).1, (h4 a ha).2⟩
      · intro y hy
        rcases List.mem_cons.mp hy with hy | hy
        · subst hy; exact List.mem_append_left _ hx
        · exact h5 y hy
    · have he : enqueueNew (x :: xs) (r, q) = enqueueNew xs (r ++ [x], q ++ [x]) := by
        simp [enqueueNew, hx]
      obtain ⟨add, h1, h2, h3, h4, h5⟩ := ih (r ++ [x]) (q ++ [x])
      have hxadd : x ∉ add := fun hmem => (h4 x hmem).2 (by simp)
      refine ⟨x :: add, ?_, ?_, ?_, ?_, ?_⟩
      · rw [he, h1]; simp
      · rw [he, h2]; simp
      · exact List.nodup_cons.mpr ⟨hxadd, h3⟩
      · intro a ha
        rcases List.mem_cons.mp ha with ha | ha
        · subst ha; exact ⟨List.mem_cons_self _ _, hx⟩
        · refine ⟨List.mem_cons_of_mem _ (h4 a ha).1, fun har => (h4 a ha).2 ?_⟩
          exact List.mem_append_left _ har
      · intro y hy
        rcases List.mem_cons.mp hy with hy | hy
        · subst hy
          simp
        · have := h5 y hy
          simp only [List.mem_append, List.mem_singleton, List.mem_cons] at this ⊢
          tauto

theorem unseenCount_removeMany (B : List String) :
    ∀ (add r : List String), add.Nodup → (∀ a ∈ add, a ∈ B ∧ a ∉ r) →
      unseenCount B (r ++ add) + add.length ≤ unseenCount B r := by
  intro add
  induction add with
  | nil => intro r _ _; simp
  | cons a add ih =>
    intro r hnd hmem
    have ha := hmem a (List.mem_cons_self _ _)
    have hstep : unseenCount B (r ++ [a]) < unseenCount B r :=
      unseenCount_lt ha.1 ha.2 (by simp) (fun x hx => by simp [hx])
    have hrec := ih (r ++ [a]) (List.nodup_cons.mp hnd).2 ?_
    · have hco : r ++ a :: add = (r ++ [a]) ++ add := by simp
      rw [hco]
      simp only [List.length_cons]
      omega
    · intro x hx
      refine ⟨(hmem x (List.mem_cons_of_mem _ hx)).1, ?_⟩
      intro hc
      rcases List.mem_append.mp hc with hc | hc
      · exact (hmem x (List.mem_cons_of_mem _ hx)).2 hc
      · simp only [List.mem_singleton] at hc
        subst hc
        exact (List.nodup_cons.mp hnd).1 hx

theorem bfsF_spec (adj : String → List String) (B : List String)
    (hadj : ∀ c, ∀ x ∈ adj c, x ∈ B) (seeds : List String) :
    ∀ (fuel : Nat) (r q : List String),
      fuel ≥ q.length + unseenCount B r + 1 →
      (∀ x ∈ q, x ∈ r) →
      (∀ x ∈ r, ∃ s ∈ seeds, ReachesVia adj s x) →
      (∀ x ∈ r, x ∉ q → ∀ y ∈ adj x, y ∈ r) →
      (∀ x ∈ r, x ∈ bfsF adj fuel r q) ∧
      (∀ x ∈ bfsF adj fuel r q, ∃ s ∈ seeds, ReachesVia adj s x) ∧
      (∀ x ∈ bfsF adj fuel r q, ∀ y ∈ adj x, y ∈ bfsF adj fuel r q) := by
  intro fuel
  induction fuel with
  | zero =>
    intro r q hfuel
    omega
  | succ fuel ih =>
    intro r q hfuel hq hsound hclosed
    cases q with
    | nil =>
      refine ⟨fun x hx => hx, hsound, ?_⟩
      intro x hx y hy
      exact hclosed x hx (List.not_mem_nil x) y hy
    | cons cur rest =>
      obtain ⟨add, h1, h2, h3, h4, h5⟩ := enqueueNew_spec (adj cur) r rest
      have hstep : bfsF adj (fuel + 1) r (cur :: rest)
          = bfsF adj fuel (r ++ add) (rest ++ add) := by
        show bfsF adj fuel (enqueueNew (adj cur) (r, rest)).1
          (enqueueNew (adj cur) (r, rest)).2 = _
        rw [h1, h2]
      have hsub : ∀ a ∈ add, a ∈ B ∧ a ∉ r :=
        fun a ha => ⟨hadj cur (a) (h4 a ha).1, (h4 a ha).2⟩
      have hcount := unseenCount_removeMany B add r h3 hsub
      have hcur : cur ∈ r := hq cur (List.mem_cons_self _ _)
      have hq2 : ∀ x ∈ rest ++ add, x ∈ r ++ add := by
        intro x hx
        rcases List.mem_append.mp hx with hx | hx
        · exact List.mem_append_left _ (hq x (List.mem_cons_of_mem _ hx))
        · exact List.mem_append_right _ hx
      have hsound2 : ∀ x ∈ r ++ add, ∃ s ∈ seeds, ReachesVia adj s x := by
        intro x hx
        rcases List.mem_append.mp hx with hx | hx
        · exact hsound x hx
        · obtain ⟨s, hs, hr⟩ := hsound cur hcur
          exact ⟨s, hs, reachesVia_snoc hr (h4 x hx).1⟩
      have hclosed2 : ∀ x ∈ r ++ add, x ∉ rest ++ add →
          ∀ y ∈ adj x, y ∈ r ++ add := by
        intro x hx hnq y hy
        rcases List.mem_append.mp hx with hx | hx
        · by_cases hxc : x = cur
          · subst hxc
            exact h5 y hy
          · have hxq : x ∉ cur :: rest := by
              intro hc
              rcases List.mem_cons.mp hc with hc | hc
              · exact hxc hc
              · exact hnq (List.mem_append_left _ hc)
            exact List.mem_append_left _ (hclosed x hx hxq y hy)
        · exact absurd (List.mem_append_right _ hx) hnq
      have hres := ih (r ++ add) (rest ++ add) ?_ hq2 hsound2 hclosed2
      · rw [hstep]
        refine ⟨?_, hres.2.1, hres.2.2⟩
        intro x hx
        exact hres.1 x (List.mem_append_left _ hx)
      · simp only [List.length_append]
        simp only [List.length_cons] at hfuel
        omega

theorem mem_values_of_entry {g : Graph} {e : String × List String} (he : e ∈ g)
    {x : String} (hx : x ∈ e.2) : x ∈ valuesOf g :=
  List.mem_flatten.mpr ⟨e.2, List.mem_map_of_mem _ he, hx⟩

/-- C1: for every graph (with the unique keys of a Go map) and every
target, a node is a member of the set returned by
computeReachableToTarget(target, graph) if and only if there is a directed
path of zero or more edges from that node to the target; the target itself
is always a member, and when the target occurs nowhere in the graph the
returned set is exactly the singleton containing the target. -/
theorem computeReachableToTarget_spec (g : Graph) (target : String)
    (hnd : (keysOf g).Nodup) :
    (∀ n, n ∈ computeReachableToTarget target g ↔ Reaches g n target) ∧
    target ∈ computeReachableToTarget target g ∧
    (target ∉ nodesOf g → computeReachableToTarget target g = [target]) := by
  have hadj : ∀ c, ∀ x ∈ lookupG (buildReverse g) c, x ∈ valuesOf (buildReverse g) :=
    fun c x hx => mem_lookupG_mem_values hx
  have hcnt := unseenCount_le (valuesOf (buildReverse g)) [target]
  obtain ⟨hgrow, hsound, hclosed⟩ := bfsF_spec
    (fun cur => lookupG (buildReverse g) cur) (valuesOf (buildReverse g)) hadj
    [target] ((valuesOf (buildReverse g)).length + 2) [target] [target]
    (by simp only [List.length_singleton]; omega)
    (fun x hx => hx)
    (fun x hx => ⟨target, List.mem_singleton_self _, by
      simp only [List.mem_singleton] at hx
      subst hx
      exact ReachesVia.refl x⟩)
    (fun x hx hnq => absurd hx hnq)
  have hR : computeReachableToTarget target g
      = bfsF (fun cur => lookupG (buildReverse g) cur)
        ((valuesOf (buildReverse g)).length + 2) [target] [target] := rfl
  refine ⟨?_, ?_, ?_⟩
  · intro n
    constructor
    · intro hn
      rw [hR] at hn
      obtain ⟨s, hs, hr⟩ := hsound n hn
      simp only [List.mem_singleton] at hs
      subst hs
      exact (reachesVia_rev_iff hnd).mp hr
    · intro hreach
      rw [hR]
      exact reachesVia_mem_closed hclosed (hgrow target (List.mem_singleton_self _))
        ((reachesVia_rev_iff hnd).mpr hreach)
  · rw [hR]
    exact hgrow target (List.mem_singleton_self _)
  · intro habs
    have h0 : lookupG (buildReverse g) target = [] := by
      cases hcase : lookupG (buildReverse g) target with
      | nil => rfl
      | cons a rest =>
        exfalso
        have hmem : a ∈ lookupG (buildReverse g) target := by
          rw [hcase]; exact List.mem_cons_self _ _
        rw [mem_lookupG_buildReverse] at hmem
        obtain ⟨e, he, _, h2⟩ := hmem
        exact habs (mem_values_mem_nodes (mem_values_of_entry he h2))
    have hstep1 : computeReachableToTarget target g
        = bfsF (fun cur => lookupG (buildReverse g) cur)
          ((valuesOf (buildReverse g)).length + 1)
          (enqueueNew (lookupG (buildReverse g) target) ([target], [])).1
          (enqueueNew (lookupG (buildReverse g) target) ([target], [])).2 := rfl
    rw [hstep1, h0]
    rfl

theorem computeReachableToTarget_spec_witness :
    ("A" ∈ computeReachableToTarget "D" [("A", ["B", "C"]), ("B", ["D"]), ("C", ["D"])]
      ↔ Reaches [("A", ["B", "C"]), ("B", ["D"]), ("C", ["D"])] "A" "D") ∧
    "D" ∈ computeReachableToTarget "D" [("A", ["B", "C"]), ("B", ["D"]), ("C", ["D"])] ∧
    computeReachableToTarget "X" [("A", ["B", "C"]), ("B", ["D"]), ("C", ["D"])] = ["X"] :=
  ⟨(computeReachableToTarget_spec [("A", ["B", "C"]), ("B", ["D"]), ("C", ["D"])] "D"
      (by decide)).1 "A",
   (computeReachableToTarget_spec [("A", ["B", "C"]), ("B", ["D"]), ("C", ["D"])] "D"
      (by decide)).2.1,
   (computeReachableToTarget_spec [("A", ["B", "C"]), ("B", ["D"]), ("C", ["D"])] "X"
      (by decide)).2.2 (by decide)⟩

/-! ## getLongestChain: validity of the memo table and of returned chains -/

theorem lookupM_insertM (m : Memo) (k x : String) (c : Chain) :
    lookupM (insertM m k c) x = if k = x then some c else lookupM m x := rfl

theorem consecEdges_cons_of_head {g : Graph} {l : List String} {a d : String}
    (hh : l.head? = some d) (he : hasEdge g a d) (hc : consecEdges g l) :
    consecEdges g (a :: l) := by
  cases l with
  | nil => simp at hh
  | cons x rest =>
    have hx : x = d := by simpa using hh
    subst hx
    exact ⟨he, hc⟩

theorem validMemo_insert {g : Graph} {m : Memo} (hv : ValidMemo g m)
    {k : String} {c : Chain} (_hk : lookupM m k = none)
    (hhead : c.head? = some k) (hconsec : consecEdges g c) (hnodup : c.Nodup)
    (helem : ∀ x ∈ c, x = k ∨ (lookupM m x).isSome = true) :
    ValidMemo g (insertM m k c) := by
  intro k2 c2 h2
  rw [lookupM_insertM] at h2
  by_cases hkk : k = k2
  · rw [if_pos hkk] at h2
    obtain rfl : c = c2 := by simpa using h2
    subst hkk
    refine ⟨hhead, hconsec, hnodup, ?_⟩
    intro x hx
    rw [lookupM_insertM]
    by_cases hxk : k = x
    · simp [hxk]
    · rw [if_neg hxk]
      rcases helem x hx with h | h
      · exact absurd h.symm hxk
      · exact h
  · rw [if_neg hkk] at h2
    obtain ⟨hh2, hc2, hn2, he2⟩ := hv k2 c2 h2
    refine ⟨hh2, hc2, hn2, ?_⟩
    intro x hx
    rw [lookupM_insertM]
    by_cases hxk : k = x
    · rw [if_pos hxk]
      rfl
    · rw [if_neg hxk]
      exact he2 x hx

theorem glcLoop_valid (g : Graph) (chain2 : Chain)
    (rec : String → Memo → Chain × Memo) (dall : List String)
    (hrec : ∀ d m, d ∈ dall → ValidMemo g m →
      ValidMemo g (rec d m).2 ∧
      (∀ k, (lookupM (rec d m).2 k).isSome = true →
        (lookupM m k).isSome = true ∨ lookupG g k = [] ∨ k ∉ chain2) ∧
      (∀ k, (lookupM m k).isSome = true → (lookupM (rec d m).2 k).isSome = true) ∧
      ((rec d m).1 = [] ∨
        ((∃ d2 ∈ dall, (rec d m).1.head? = some d2) ∧ consecEdges g (rec d m).1 ∧
          (rec d m).1.Nodup ∧
          ∀ x ∈ (rec d m).1, (lookupM (rec d m).2 x).isSome = true))) :
    ∀ (deps : List String) (best : Chain) (memo : Memo),
      (∀ d ∈ deps, d ∈ dall) → ValidMemo g memo →
      (best = [] ∨
        ((∃ d2 ∈ dall, best.head? = some d2) ∧ consecEdges g best ∧ best.Nodup ∧
          ∀ x ∈ best, (lookupM memo x).isSome = true)) →
      ValidMemo g (glcLoop rec deps best memo).2 ∧
      (∀ k, (lookupM (glcLoop rec deps best memo).2 k).isSome = true →
        (lookupM memo k).isSome = true ∨ lookupG g k = [] ∨ k ∉ chain2) ∧
      (∀ k, (lookupM memo k).isSome = true →
        (lookupM (glcLoop rec deps best memo).2 k).isSome = true) ∧
      ((glcLoop rec deps best memo).1 = [] ∨
        ((∃ d2 ∈ dall, (glcLoop rec deps best memo).1.head? = some d2) ∧
          consecEdges g (glcLoop rec deps best memo).1 ∧
          (glcLoop rec deps best memo).1.Nodup ∧
          ∀ x ∈ (glcLoop rec deps best memo).1,
            (lookupM (glcLoop rec deps best memo).2 x).isSome = true)) := by
  intro deps
  induction deps with
  | nil =>
    intro best memo _ hv hbest
    exact ⟨hv, fun k hk => Or.inl hk, fun k hk => hk, hbest⟩
  | cons d rest ih =>
    intro best memo hdeps hv hbest
    obtain ⟨hv1, hB1, hC1, hD1⟩ := hrec d memo (hdeps d (List.mem_cons_self _ _)) hv
    have hunfold : glcLoop rec (d :: rest) best memo =
        glcLoop rec rest
          (if (rec d memo).1.length > best.length then (rec d memo).1 else best)
          (rec d memo).2 := rfl
    have hbest2 : (if (rec d memo).1.length > best.length then (rec d memo).1
          else best) = [] ∨
        ((∃ d2 ∈ dall, (if (rec d memo).1.length > best.length then (rec d memo).1
            else best).head? = some d2) ∧
          consecEdges g (if (rec d memo).1.length > best.length then (rec d memo).1
            else best) ∧
          (if (rec d memo).1.length > best.length then (rec d memo).1
            else best).Nodup ∧
          ∀ x ∈ (if (rec d memo).1.length > best.length then (rec d memo).1
            else best), (lookupM (rec d memo).2 x).isSome = true) := by
      by_cases hlen : (rec d memo).1.length > best.length
      · rw [if_pos hlen]
        rcases hD1 with hnil | hgood
        · rw [hnil] at hlen
          simp at hlen
        · exact Or.inr hgood
      · rw [if_neg hlen]
        rcases hbest with hnil | ⟨hh, hc, hn, he⟩
        · exact Or.inl hnil
        · exact Or.inr ⟨hh, hc, hn, fun x hx => hC1 x (he x hx)⟩
    have hres := ih (if (rec d memo).1.length > best.length then (rec d memo).1
        else best) (rec d memo).2
      (fun d2 hd2 => hdeps d2 (List.mem_cons_of_mem _ hd2)) hv1 hbest2
    rw [hunfold]
    refine ⟨hres.1, ?_, ?_, hres.2.2.2⟩
    · intro k hk
      rcases hres.2.1 k hk with h | h
      · exact hB1 k h
      · exact Or.inr h
    · intro k hk
      exact hres.2.2.1 k (hC1 k hk)

theorem glcF_valid (g : Graph) :
    ∀ (fuel : Nat) (dep : String) (chain : Chain) (memo : Memo),
      ValidMemo g memo →
      ValidMemo g (glcF g fuel dep chain memo).2 ∧
      (∀ k, (lookupM (glcF g fuel dep chain memo).2 k).isSome = true →
        (lookupM memo k).isSome = true ∨ lookupG g k = [] ∨ k ∉ chain) ∧
      (∀ k, (lookupM memo k).isSome = true →
        (lookupM (glcF g fuel dep chain memo).2 k).isSome = true) ∧
      ((glcF g fuel dep chain memo).1 = [] ∨
        ((glcF g fuel dep chain memo).1.head? = some dep ∧
          consecEdges g (glcF g fuel dep chain memo).1 ∧
          (glcF g fuel dep chain memo).1.Nodup ∧
          ∀ x ∈ (glcF g fuel dep chain memo).1,
            (lookupM (glcF g fuel dep chain memo).2 x).isSome = true)) := by
  intro fuel
  induction fuel with
  | zero =>
    intro dep chain memo hv
    exact ⟨hv, fun k hk => Or.inl hk, fun k hk => hk, Or.inl rfl⟩
  | succ fuel ih =>
    intro dep chain memo hv
    rw [glcF_succ_eq]
    cases hi : lookupM memo dep with
    | some c =>
      simp only [hi]
      obtain ⟨hh, hc, hn, he⟩ := hv dep c hi
      exact ⟨hv, fun k hk => Or.inl hk, fun k hk => hk, Or.inr ⟨hh, hc, hn, he⟩⟩
    | none =>
      simp only [hi]
      by_cases hleaf : lookupG g dep = []
      · simp only [if_pos hleaf]
        refine ⟨?_, ?_, ?_, ?_⟩
        · exact validMemo_insert hv hi (by simp) trivial (List.nodup_singleton _)
            (fun x hx => Or.inl (by simpa using hx))
        · intro k hk
          rw [lookupM_insertM] at hk
          by_cases hdk : dep = k
          · subst hdk
            exact Or.inr (Or.inl hleaf)
          · rw [if_neg hdk] at hk
            exact Or.inl hk
        · intro k hk
          rw [lookupM_insertM]
          by_cases hdk : dep = k
          · rw [if_pos hdk]; rfl
          · rw [if_neg hdk]; exact hk
        · refine Or.inr ⟨by simp, trivial, List.nodup_singleton _, ?_⟩
          intro x hx
          simp only [List.mem_singleton] at hx
          subst hx
          rw [lookupM_insertM, if_pos rfl]
          rfl
      · simp only [if_neg hleaf]
        by_cases hin : dep ∈ chain
        · simp only [if_pos hin]
          exact ⟨hv, fun k hk => Or.inl hk, fun k hk => hk, Or.inl trivial⟩
        · simp only [if_neg hin]
          have hrec : ∀ d m, d ∈ lookupG g dep → ValidMemo g m →
              ValidMemo g (glcF g fuel d (chain ++ [dep]) m).2 ∧
              (∀ k, (lookupM (glcF g fuel d (chain ++ [dep]) m).2 k).isSome = true →
                (lookupM m k).isSome = true ∨ lookupG g k = [] ∨
                  k ∉ chain ++ [dep]) ∧
              (∀ k, (lookupM m k).isSome = true →
                (lookupM (glcF g fuel d (chain ++ [dep]) m).2 k).isSome = true) ∧
              ((glcF g fuel d (chain ++ [dep]) m).1 = [] ∨
                ((∃ d2 ∈ lookupG g dep,
                    (glcF g fuel d (chain ++ [dep]) m).1.head? = some d2) ∧
                  consecEdges g (glcF g fuel d (chain ++ [dep]) m).1 ∧
                  (glcF g fuel d (chain ++ [dep]) m).1.Nodup ∧
                  ∀ x ∈ (glcF g fuel d (chain ++ [dep]) m).1,
                    (lookupM (glcF g fuel d (chain ++ [dep]) m).2 x).isSome
                      = true)) := by
            intro d m hd hvm
            obtain ⟨a1, a2, a3, a4⟩ := ih d (chain ++ [dep]) m hvm
            refine ⟨a1, a2, a3, ?_⟩
            rcases a4 with h | ⟨hh, hc, hn, he⟩
            · exact Or.inl h
            · exact Or.inr ⟨⟨d, hd, hh⟩, hc, hn, he⟩
          obtain ⟨hvL, hBL, hCL, hDL⟩ := glcLoop_valid g (chain ++ [dep])
            (fun d m => glcF g fuel d (chain ++ [dep]) m) (lookupG g dep) hrec
            (lookupG g dep) [] memo (fun d hd => hd) hv (Or.inl rfl)
          have hnk : ¬ (lookupM
              (glcLoop (fun d m => glcF g fuel d (chain ++ [dep]) m)
                (lookupG g dep) [] memo).2 dep).isSome = true := by
            intro hk
            rcases hBL dep hk with h | h | h
            · rw [hi] at h; simp at h
            · exact hleaf h
            · exact h (by simp)
          have hnone : lookupM
              (glcLoop (fun d m => glcF g fuel d (chain ++ [dep]) m)
                (lookupG g dep) [] memo).2 dep = none :=
            Option.not_isSome_iff_eq_none.mp hnk
          have hhead2 : ∀ hgood : (∃ d2 ∈ lookupG g dep,
              (glcLoop (fun d m => glcF g fuel d (chain ++ [dep]) m)
                (lookupG g dep) [] memo).1.head? = some d2) ∧
              consecEdges g (glcLoop (fun d m => glcF g fuel d (chain ++ [dep]) m)
                (lookupG g dep) [] memo).1 ∧
              (glcLoop (fun d m => glcF g fuel d (chain ++ [dep]) m)
                (lookupG g dep) [] memo).1.Nodup ∧
              (∀ x ∈ (glcLoop (fun d m => glcF g fuel d (chain ++ [dep]) m)
                (lookupG g dep) [] memo).1,
                (lookupM (glcLoop (fun d m => glcF g fuel d (chain ++ [dep]) m)
                  (lookupG g dep) [] memo).2 x).isSome = true),
              consecEdges g (dep ::
                (glcLoop (fun d m => glcF g fuel d (chain ++ [dep]) m)
                  (lookupG g dep) [] memo).1) := by
            rintro ⟨⟨d2, hd2, hh⟩, hc, _, _⟩
            exact consecEdges_cons_of_head hh hd2 hc
          have hconsec2 : consecEdges g (dep ::
              (glcLoop (fun d m => glcF g fuel d (chain ++ [dep]) m)
                (lookupG g dep) [] memo).1) := by
            rcases hDL with h | hgood
            · rw [h]; trivial
            · exact hhead2 hgood
          have hnotin : dep ∉ (glcLoop (fun d m => glcF g fuel d (chain ++ [dep]) m)
              (lookupG g dep) [] memo).1 := by
            intro hmem
            rcases hDL with h | ⟨_, _, _, he⟩
            · rw [h] at hmem; exact List.not_mem_nil _ hmem
            · exact hnk (he dep hmem)
          have hnodup2 : (dep ::
              (glcLoop (fun d m => glcF g fuel d (chain ++ [dep]) m)
                (lookupG g dep) [] memo).1).Nodup := by
            rcases hDL with h | ⟨_, _, hn, _⟩
            · rw [h]; exact List.nodup_singleton _
            · exact List.nodup_cons.mpr ⟨hnotin, hn⟩
          refine ⟨?_, ?_, ?_, ?_⟩
          · apply validMemo_insert hvL hnone (by simp) hconsec2 hnodup2
            intro x hx
            rcases List.mem_cons.mp hx with hx | hx
            · exact Or.inl hx
            · rcases hDL with h | ⟨_, _, _, he⟩
              · rw [h] at hx; exact absurd hx (List.not_mem_nil _)
              · exact Or.inr (he x hx)
          · intro k hk
            rw [lookupM_insertM] at hk
            by_cases hdk : dep = k
            · subst hdk
              exact Or.inr (Or.inr hin)
            · rw [if_neg hdk] at hk
              rcases hBL k hk with h | h | h
              · exact Or.inl h
              · exact Or.inr (Or.inl h)
              · refine Or.inr (Or.inr ?_)
                intro hc
                exact h (List.mem_append_left _ hc)
          · intro k hk
            rw [lookupM_insertM]
            by_cases hdk : dep = k
            · rw [if_pos hdk]; rfl
            · rw [if_neg hdk]
              exact hCL k hk
          · refine Or.inr ⟨by simp, hconsec2, hnodup2, ?_⟩
            intro x hx
            rw [lookupM_insertM]
            by_cases hdx : dep = x
            · rw [if_pos hdx]; rfl
            · rw [if_neg hdx]
              rcases List.mem_cons.mp hx with hx | hx
              · exact absurd hx.symm hdx
              · rcases hDL with h | ⟨_, _, _, he⟩
                · rw [h] at hx; exact absurd hx (List.not_mem_nil _)
                · exact he x hx

/-! ## getLongestChain: optimality on acyclic graphs -/

theorem consecEdges_of_append_right {g : Graph} :
    ∀ {x y : List String}, consecEdges g (x ++ y) → consecEdges g y := by
  intro x
  induction x with
  | nil => exact fun h => h
  | cons a x ih =>
    intro y h
    exact ih (consecEdges_tail h)

theorem consec_reaches {g : Graph} :
    ∀ (l : List String) (x y : String), consecEdges g (x :: l) →
      (x :: l).getLast? = some y → Reaches g x y := by
  intro l
  induction l with
  | nil =>
    intro x y _ hl
    obtain rfl : x = y := by simpa using hl
    exact ReachesVia.refl x
  | cons b l ih =>
    intro x y hc hl
    rw [List.getLast?_cons_cons] at hl
    exact ReachesVia.head hc.1 (ih b y hc.2 hl)

theorem cycle_of_consec_mem {g : Graph} {chain : List String} {dep : String}
    (hc : consecEdges g (chain ++ [dep])) (hin : dep ∈ chain) :
    ReachesPlus g dep dep := by
  obtain ⟨s, t, rfl⟩ := List.append_of_mem hin
  have hshape : (s ++ dep :: t) ++ [dep] = s ++ (dep :: (t ++ [dep])) := by simp
  rw [hshape] at hc
  have hc2 : consecEdges g (dep :: (t ++ [dep])) := consecEdges_of_append_right hc
  cases t with
  | nil => exact ⟨dep, hc2.1, ReachesVia.refl dep⟩
  | cons u t2 =>
    have hc3 : consecEdges g (u :: (t2 ++ [dep])) := by
      exact hc2.2
    have hlast : (u :: (t2 ++ [dep])).getLast? = some dep := by
      have : u :: (t2 ++ [dep]) = (u :: t2) ++ [dep] := by simp
      rw [this, List.getLast?_concat]
    exact ⟨u, hc2.1, consec_reaches _ u dep hc3 hlast⟩

theorem goodMemo_insert {g : Graph} {m : Memo} (hv : GoodMemo g m)
    {k : String} {c : Chain} (hs : SuccChainFrom g k c)
    (hopt : ∀ p, SuccChainFrom g k p → p.length ≤ c.length) :
    GoodMemo g (insertM m k c) := by
  intro k2 c2 h2
  rw [lookupM_insertM] at h2
  by_cases hkk : k = k2
  · rw [if_pos hkk] at h2
    obtain rfl : c = c2 := by simpa using h2
    subst hkk
    exact ⟨hs, hopt⟩
  · rw [if_neg hkk] at h2
    exact hv k2 c2 h2

theorem glcLoop_good (g : Graph) (dall : List String)
    (rec : String → Memo → Chain × Memo)
    (hrec : ∀ d m, d ∈ dall → GoodMemo g m →
      GoodMemo g (rec d m).2 ∧ SuccChainFrom g d (rec d m).1 ∧
      ∀ p, SuccChainFrom g d p → p.length ≤ (rec d m).1.length) :
    ∀ (deps : List String) (best : Chain) (memo : Memo),
      (∀ d ∈ deps, d ∈ dall) → GoodMemo g memo →
      (best = [] ∨ ∃ d2 ∈ dall, SuccChainFrom g d2 best) →
      GoodMemo g (glcLoop rec deps best memo).2 ∧
      best.length ≤ (glcLoop rec deps best memo).1.length ∧
      ((glcLoop rec deps best memo).1 = [] ∨
        ∃ d2 ∈ dall, SuccChainFrom g d2 (glcLoop rec deps best memo).1) ∧
      (∀ d ∈ deps, ∀ p, SuccChainFrom g d p →
        p.length ≤ (glcLoop rec deps best memo).1.length) := by
  intro deps
  induction deps with
  | nil =>
    intro best memo _ hv hbest
    exact ⟨hv, Nat.le_refl _, hbest, by simp⟩
  | cons d rest ih =>
    intro best memo hdeps hv hbest
    obtain ⟨hv1, hs1, hopt1⟩ := hrec d memo (hdeps d (List.mem_cons_self _ _)) hv
    have hunfold : glcLoop rec (d :: rest) best memo =
        glcLoop rec rest
          (if (rec d memo).1.length > best.length then (rec d memo).1 else best)
          (rec d memo).2 := rfl
    have hb2len : best.length ≤ (if (rec d memo).1.length > best.length
        then (rec d memo).1 else best).length := by
      by_cases hlen : (rec d memo).1.length > best.length
      · rw [if_pos hlen]; omega
      · rw [if_neg hlen]
    have hc1len : (rec d memo).1.length ≤ (if (rec d memo).1.length > best.length
        then (rec d memo).1 else best).length := by
      by_cases hlen : (rec d memo).1.length > best.length
      · rw [if_pos hlen]
      · rw [if_neg hlen]; omega
    have hbest2 : (if (rec d memo).1.length > best.length then (rec d memo).1
          else best) = [] ∨
        ∃ d2 ∈ dall, SuccChainFrom g d2 (if (rec d memo).1.length > best.length
          then (rec d memo).1 else best) := by
      by_cases hlen : (rec d memo).1.length > best.length
      · rw [if_pos hlen]
        exact Or.inr ⟨d, hdeps d (List.mem_cons_self _ _), hs1⟩
      · rw [if_neg hlen]
        exact hbest
    have hres := ih (if (rec d memo).1.length > best.length then (rec d memo).1
        else best) (rec d memo).2
      (fun d2 hd2 => hdeps d2 (List.mem_cons_of_mem _ hd2)) hv1 hbest2
    rw [hunfold]
    refine ⟨hres.1, Nat.le_trans hb2len hres.2.1, hres.2.2.1, ?_⟩
    intro d2 hd2 p hp
    rcases List.mem_cons.mp hd2 with hd2 | hd2
    · subst hd2
      have := hopt1 p hp
      have := hres.2.1
      omega
    · exact hres.2.2.2 d2 hd2 p hp

theorem glcF_good (g : Graph) (hacy : Acyclic g) :
    ∀ (fuel : Nat) (dep : String) (chain : Chain) (memo : Memo),
      fuel ≥ unseenCount (keysOf g) chain + 1 →
      consecEdges g (chain ++ [dep]) →
      GoodMemo g memo →
      GoodMemo g (glcF g fuel dep chain memo).2 ∧
      SuccChainFrom g dep (glcF g fuel dep chain memo).1 ∧
      ∀ p, SuccChainFrom g dep p →
        p.length ≤ (glcF g fuel dep chain memo).1.length := by
  intro fuel
  induction fuel with
  | zero =>
    intro dep chain memo hfuel
    omega
  | succ fuel ih =>
    intro dep chain memo hfuel hchain hv
    rw [glcF_succ_eq]
    cases hi : lookupM memo dep with
    | some c =>
      simp only [hi]
      exact ⟨hv, (hv dep c hi).1, (hv dep c hi).2⟩
    | none =>
      simp only [hi]
      by_cases hleaf : lookupG g dep = []
      · simp only [if_pos hleaf]
        have hopt : ∀ p, SuccChainFrom g dep p → p.length ≤ 1 := by
          rintro p ⟨hh, hc⟩
          cases p with
          | nil => simp at hh
          | cons a rest =>
            have ha : a = dep := by simpa using hh
            cases rest with
            | nil => simp
            | cons r0 rest2 =>
              have hr0 : r0 ∈ lookupG g a := hc.1
              rw [ha, hleaf] at hr0
              exact absurd hr0 (List.not_mem_nil _)
        refine ⟨?_, ⟨by simp, trivial⟩, ?_⟩
        · exact goodMemo_insert hv ⟨by simp, trivial⟩
            (by simpa using hopt)
        · simpa using hopt
      · simp only [if_neg hleaf]
        by_cases hin : dep ∈ chain
        · exact absurd (cycle_of_consec_mem hchain hin) (hacy dep)
        · simp only [if_neg hin]
          have hkey : dep ∈ keysOf g := lookupG_ne_nil_mem_keys hleaf
          have hlt : unseenCount (keysOf g) (chain ++ [dep]) <
              unseenCount (keysOf g) chain :=
            unseenCount_lt hkey hin (by simp) (fun x hx => by simp [hx])
          have hrec : ∀ d m, d ∈ lookupG g dep → GoodMemo g m →
              GoodMemo g (glcF g fuel d (chain ++ [dep]) m).2 ∧
              SuccChainFrom g d (glcF g fuel d (chain ++ [dep]) m).1 ∧
              ∀ p, SuccChainFrom g d p →
                p.length ≤ (glcF g fuel d (chain ++ [dep]) m).1.length := by
            intro d m hd hvm
            exact ih d (chain ++ [dep]) m (by omega)
              (by simpa using consecEdges_snoc chain hchain hd) hvm
          obtain ⟨hvL, hlenL, hDL, hoptL⟩ := glcLoop_good g (lookupG g dep)
            (fun d m => glcF g fuel d (chain ++ [dep]) m) hrec
            (lookupG g dep) [] memo (fun d hd => hd) hv (Or.inl rfl)
          have hne : (glcLoop (fun d m => glcF g fuel d (chain ++ [dep]) m)
              (lookupG g dep) [] memo).1 ≠ [] := by
            intro hnil
            cases hd0 : lookupG g dep with
            | nil => exact hleaf hd0
            | cons d0 rest0 =>
              have hd0m : d0 ∈ lookupG g dep := by
                rw [hd0]; exact List.mem_cons_self _ _
              have h1 := hoptL d0 hd0m [d0] ⟨by simp, trivial⟩
              rw [hnil] at h1
              simp at h1
          have hDL2 : ∃ d2 ∈ lookupG g dep, SuccChainFrom g d2
              (glcLoop (fun d m => glcF g fuel d (chain ++ [dep]) m)
                (lookupG g dep) [] memo).1 := by
            rcases hDL with h | h
            · exact absurd h hne
            · exact h
          obtain ⟨d2, hd2, hs2⟩ := hDL2
          have hsucc : SuccChainFrom g dep (dep ::
              (glcLoop (fun d m => glcF g fuel d (chain ++ [dep]) m)
                (lookupG g dep) [] memo).1) := by
            refine ⟨by simp, ?_⟩
            exact consecEdges_cons_of_head hs2.1 hd2 hs2.2
          have hopt : ∀ p, SuccChainFrom g dep p → p.length ≤
              (dep :: (glcLoop (fun d m => glcF g fuel d (chain ++ [dep]) m)
                (lookupG g dep) [] memo).1).length := by
            rintro p ⟨hh, hc⟩
            cases p with
            | nil => simp at hh
            | cons a rest =>
              have ha : a = dep := by simpa using hh
              cases rest with
              | nil => simp
              | cons d3 rest2 =>
                have hd3 : d3 ∈ lookupG g dep := by rw [← ha]; exact hc.1
                have hs3 : SuccChainFrom g d3 (d3 :: rest2) := ⟨by simp, hc.2⟩
                have := hoptL d3 hd3 (d3 :: rest2) hs3
                simp only [List.length_cons] at this ⊢
                omega
          refine ⟨?_, hsucc, hopt⟩
          exact goodMemo_insert hvL hsucc hopt

theorem reaches_of_no_succ {g : Graph} {x y : String} (h : Reaches g x y)
    (hx : lookupG g x = []) : x = y := by
  cases h with
  | refl => rfl
  | head hb _ => rw [hx] at hb; exact absurd hb (List.not_mem_nil _)

/-- C3 (counterexample to the claim as stated): in the cyclic graph with
edges R→A, R→B, A→B, A→C, B→A, C→D, the call getLongestChain(R, graph,
[], \x7b\x7d) returns [R, A, C, D] of length 4, although [R, B, A, C, D]
is an acyclic chain of successors starting at R of length 5; so on a graph
with a cycle reachable from the node the call does not return the longest
acyclic chain (the memo entry for B is cached as [B] while the cycle
through its successor A is blocked on the recursion stack, and the stale
entry is reused from the sibling branch). -/
theorem getLongestChain_cyclic_counterexample :
    getLongestChain "R"
        [("R", ["A", "B"]), ("A", ["B", "C"]), ("B", ["A"]), ("C", ["D"])]
        [] [] = ["R", "A", "C", "D"] ∧
    SuccChainFrom [("R", ["A", "B"]), ("A", ["B", "C"]), ("B", ["A"]), ("C", ["D"])]
      "R" ["R", "B", "A", "C", "D"] ∧
    (["R", "B", "A", "C", "D"] : List String).Nodup ∧
    (["R", "A", "C", "D"] : List String).length <
      (["R", "B", "A", "C", "D"] : List String).length :=
  ⟨by decide, ⟨by decide, by decide⟩, by decide, by decide⟩

/-- C3 (amended): for every acyclic graph and every node,
getLongestChain(node, graph, [], \x7b\x7d) returns a chain whose length
equals the length of the longest successor path starting at that node (the
returned chain is itself such a path and no successor path is longer); and
for every graph, including graphs with a cycle reachable from the node, the
same call terminates and returns an acyclic (simple) chain of successors
starting at the node — but, as the counterexample shows, not necessarily
the longest such chain. -/
theorem getLongestChain_spec (g : Graph) (n : String) :
    (Acyclic g →
      SuccChainFrom g n (getLongestChain n g [] []) ∧
      ∀ p, SuccChainFrom g n p → p.length ≤ (getLongestChain n g [] []).length) ∧
    ((getLongestChain n g [] []).head? = some n ∧
      consecEdges g (getLongestChain n g [] []) ∧
      (getLongestChain n g [] []).Nodup) := by
  constructor
  · intro hacy
    have hb := unseenCount_keys_le_nodes g []
    have h := glcF_good g hacy ((nodesOf g).length + 1) n [] [] (by omega) trivial
      (fun k c hk => by simp [lookupM] at hk)
    exact ⟨h.2.1, h.2.2⟩
  · have hhead := getLongestChain_head_lemma g n
    obtain ⟨_, _, _, hD⟩ := glcF_valid g ((nodesOf g).length + 1) n [] []
      (fun k c hk => by simp [lookupM] at hk)
    rcases hD with hnil | ⟨_, hc, hn2, _⟩
    · exfalso
      rw [show getLongestChain n g [] []
          = (glcF g ((nodesOf g).length + 1) n [] []).1 from rfl, hnil] at hhead
      simp at hhead
    · exact ⟨hhead, hc, hn2⟩

theorem getLongestChain_spec_witness :
    (SuccChainFrom [("A", ["B"])] "A" (getLongestChain "A" [("A", ["B"])] [] []) ∧
      ∀ p, SuccChainFrom [("A", ["B"])] "A" p →
        p.length ≤ (getLongestChain "A" [("A", ["B"])] [] []).length) ∧
    (getLongestChain "A" [("A", ["B"])] [] []).head? = some "A" :=
  ⟨(getLongestChain_spec [("A", ["B"])] "A").1
    (by
      intro n hplus
      obtain ⟨c, hc, hr⟩ := hplus
      by_cases hn : "A" = n
      · have hcB : c = "B" := by
          have hlk : lookupG [("A", ["B"])] n = ["B"] := by
            simp [lookupG, hn]
          rw [hasEdge, hlk] at hc
          simpa using hc
        subst hcB
        have := reaches_of_no_succ hr (by decide)
        rw [← hn] at this
        exact absurd this (by decide)
      · have hlk : lookupG [("A", ["B"])] n = [] := by
          simp [lookupG, hn]
        rw [hasEdge, hlk] at hc
        exact absurd hc (List.not_mem_nil c)),
   (getLongestChain_spec [("A", ["B"])] "A").2.1⟩

/-! ## computePathSubgraph: small lemmas -/

theorem idxIn_append_of_mem {l : List String} {x : String} (hx : x ∈ l)
    (l2 : List String) : idxIn (l ++ l2) x = idxIn l x := by
  induction l with
  | nil => simp at hx
  | cons a l ih =>
    by_cases ha : a = x
    · simp [idxIn, ha]
    · rcases List.mem_cons.mp hx with h | h
      · exact absurd h.symm ha
      · simp [idxIn, ha, ih h]

theorem idxIn_lt_length_of_mem {l : List String} {x : String} (hx : x ∈ l) :
    idxIn l x < l.length := by
  induction l with
  | nil => simp at hx
  | cons a l ih =>
    by_cases ha : a = x
    · simp [idxIn, ha]
    · rcases List.mem_cons.mp hx with h | h
      · exact absurd h.symm ha
      · simp only [idxIn, if_neg ha, List.length_cons]
        exact Nat.succ_lt_succ (ih h)

theorem idxIn_append_self {l : List String} {x : String} (hx : x ∉ l) :
    idxIn (l ++ [x]) x = l.length := by
  induction l with
  | nil => simp [idxIn]
  | cons a l ih =>
    have ha : ¬ a = x := fun h => hx (h ▸ List.mem_cons_self _ _)
    have hx2 : x ∉ l := fun h => hx (List.mem_cons_of_mem _ h)
    simp [idxIn, ha, ih hx2]

theorem insertEdge_spec (E : List (String × String)) (e : String × String) :
    ∃ l, insertEdge E e = E ++ l ∧ (∀ x ∈ l, x = e) ∧ e ∈ insertEdge E e := by
  by_cases he : e ∈ E
  · exact ⟨[], by simp [insertEdge, he], by simp, by simp [insertEdge, he, he]⟩
  · refine ⟨[e], by simp [insertEdge, he], by simp, ?_⟩
    simp [insertEdge, he]

theorem mem_insertSorted (x y : String) (l : List String) :
    y ∈ insertSorted x l ↔ y = x ∨ y ∈ l := by
  induction l with
  | nil => simp [insertSorted]
  | cons a l ih =>
    by_cases h : strLe x a
    · simp [insertSorted, h]
    · simp [insertSorted, h, ih]
      tauto

theorem mem_sortStrings (l : List String) (x : String) :
    x ∈ sortStrings l ↔ x ∈ l := by
  induction l with
  | nil => simp [sortStrings]
  | cons a l ih =>
    show x ∈ insertSorted a (sortStrings l) ↔ _
    rw [mem_insertSorted, ih]
    simp

theorem dfsLoop_spec (V : List String) (rec : String → DfsSt → DfsSt)
    (fb : Nat) (cur : String)
    (hrec : ∀ (next : String) (st2 : DfsSt), StInv V st2 → next ∈ V →
      next ∉ st2.active → next ∉ st2.done →
      fb ≥ unseenCount V (st2.active ++ st2.done) + 1 →
      (rec next st2).active = st2.active ∧
      (∃ dnew, (rec next st2).done = st2.done ++ dnew ∧ next ∈ dnew ∧
        (∀ x ∈ dnew, x ∉ st2.active ∧ x ∉ st2.done ∧ x ∈ V)) ∧
      (∃ enew, (rec next st2).edges = st2.edges ++ enew ∧
        ∀ e ∈ enew, (e.1 ∈ (rec next st2).done ∧ e.1 ∉ st2.done) ∧ e.2 ∈ V) ∧
      StInv V (rec next st2) ∧
      (∀ x ∈ (rec next st2).done, x ∉ st2.done → x ≠ next →
        ∃ u, (u, x) ∈ (rec next st2).edges)) :
    ∀ (succs : List String) (st : DfsSt), StInv V st → cur ∈ st.active →
      (∀ y ∈ succs, y ∈ V) →
      fb ≥ unseenCount V (st.active ++ st.done) + 1 →
      (dfsLoop rec succs cur st).active = st.active ∧
      (∃ dnew, (dfsLoop rec succs cur st).done = st.done ++ dnew ∧
        (∀ x ∈ dnew, x ∉ st.active ∧ x ∉ st.done ∧ x ∈ V)) ∧
      (∃ enew, (dfsLoop rec succs cur st).edges = st.edges ++ enew ∧
        ∀ e ∈ enew, (e.1 = cur ∨ (e.1 ∈ (dfsLoop rec succs cur st).done ∧
          e.1 ∉ st.done)) ∧ e.2 ∈ V ∧
          (e.1 = cur → e.2 ∈ (dfsLoop rec succs cur st).done)) ∧
      StInv V (dfsLoop rec succs cur st) ∧
      (∀ x ∈ (dfsLoop rec succs cur st).done, x ∉ st.done →
        ∃ u, (u, x) ∈ (dfsLoop rec succs cur st).edges) ∧
      (∀ y ∈ succs, y ∉ st.active → (cur, y) ∈ (dfsLoop rec succs cur st).edges) := by
  intro succs
  induction succs with
  | nil =>
    intro st hinv hcur _ _
    refine ⟨rfl, ⟨[], by simp [dfsLoop], by simp⟩, ⟨[], by simp [dfsLoop], by simp⟩,
      hinv, ?_, by simp⟩
    intro x hx hnx
    exact absurd hx hnx
  | cons next rest ih =>
    intro st hinv hcur hsub hfb
    obtain ⟨hA, hD, hAD, hAV, hDV, hE, hO⟩ := hinv
    have hnextV : next ∈ V := hsub next (List.mem_cons_self _ _)
    have hrestV : ∀ y ∈ rest, y ∈ V := fun y hy => hsub y (List.mem_cons_of_mem _ hy)
    by_cases hdone : next ∈ st.done
    · -- edge to a finished node: record it, no recursion
      have hunfold : dfsLoop rec (next :: rest) cur st =
          dfsLoop rec rest cur { st with edges := insertEdge st.edges (cur, next) } := by
        show dfsLoop rec rest cur
          (if next ∈ st.done then { st with edges := insertEdge st.edges (cur, next) }
           else if next ∈ st.active then st
           else rec next { st with edges := insertEdge st.edges (cur, next) }) = _
        rw [if_pos hdone]
      obtain ⟨l, hl, hle, hlin⟩ := insertEdge_spec st.edges (cur, next)
      have hinv2 : StInv V { st with edges := insertEdge st.edges (cur, next) } := by
        refine ⟨hA, hD, hAD, hAV, hDV, ?_, ?_⟩
        · intro e he
          simp only [hl] at he
          rcases List.mem_append.mp he with he | he
          · exact hE e he
          · rw [hle e he]
            exact ⟨Or.inl hcur, hnextV⟩
        · intro e he hed
          simp only [hl] at he
          rcases List.mem_append.mp he with he | he
          · exact hO e he hed
          · rw [hle e he] at hed ⊢
            exact absurd hed (hAD cur hcur)
      obtain ⟨ihA, ⟨dnew, ihD, ihDm⟩, ⟨enew, ihE, ihEm⟩, ihInv, ihInc, ihRec⟩ :=
        ih { st with edges := insertEdge st.edges (cur, next) } hinv2 hcur hrestV hfb
      rw [hunfold]
      refine ⟨ihA, ⟨dnew, ihD, ihDm⟩, ⟨l ++ enew, ?_, ?_⟩, ihInv, ihInc, ?_⟩
      · rw [ihE]
        simp only [hl]
        rw [List.append_assoc]
      · intro e he
        rcases List.mem_append.mp he with he | he
        · rw [hle e he]
          refine ⟨Or.inl rfl, hnextV, fun _ => ?_⟩
          rw [ihD]
          exact List.mem_append_left _ hdone
        · exact ihEm e he
      · intro y hy hyact
        rcases List.mem_cons.mp hy with hy | hy
        · subst hy
          rw [ihE]
          exact List.mem_append_left _ hlin
        · exact ihRec y hy hyact
    · by_cases hact : next ∈ st.active
      · -- back-edge to an active node: skipped
        have hunfold : dfsLoop rec (next :: rest) cur st = dfsLoop rec rest cur st := by
          show dfsLoop rec rest cur
            (if next ∈ st.done then { st with edges := insertEdge st.edges (cur, next) }
             else if next ∈ st.active then st
             else rec next { st with edges := insertEdge st.edges (cur, next) }) = _
          rw [if_neg hdone, if_pos hact]
        obtain ⟨ihA, ihD, ihE, ihInv, ihInc, ihRec⟩ :=
          ih st ⟨hA, hD, hAD, hAV, hDV, hE, hO⟩ hcur hrestV hfb
        rw [hunfold]
        refine ⟨ihA, ihD, ihE, ihInv, ihInc, ?_⟩
        intro y hy hyact
        rcases List.mem_cons.mp hy with hy | hy
        · subst hy
          exact absurd hact hyact
        · exact ihRec y hy hyact
      · -- tree edge to an unseen node: record it and recurse
        have hunfold : dfsLoop rec (next :: rest) cur st = dfsLoop rec rest cur
            (rec next { st with edges := insertEdge st.edges (cur, next) }) := by
          show dfsLoop rec rest cur
            (if next ∈ st.done then { st with edges := insertEdge st.edges (cur, next) }
             else if next ∈ st.active then st
             else rec next { st with edges := insertEdge st.edges (cur, next) }) = _
          rw [if_neg hdone, if_neg hact]
        obtain ⟨l, hl, hle, hlin⟩ := insertEdge_spec st.edges (cur, next)
        have hinvm : StInv V { st with edges := insertEdge st.edges (cur, next) } := by
          refine ⟨hA, hD, hAD, hAV, hDV, ?_, ?_⟩
          · intro e he
            simp only [hl] at he
            rcases List.mem_append.mp he with he | he
            · exact hE e he
            · rw [hle e he]
              exact ⟨Or.inl hcur, hnextV⟩
          · intro e he hed
            simp only [hl] at he
            rcases List.mem_append.mp he with he | he
            · exact hO e he hed
            · rw [hle e he] at hed ⊢
              exact absurd hed (hAD cur hcur)
        obtain ⟨rA, ⟨dnewr, rD, rDnext, rDm⟩, ⟨enewr, rE, rEm⟩, rInv, rInc⟩ :=
          hrec next { st with edges := insertEdge st.edges (cur, next) }
            hinvm hnextV hact hdone hfb
        have hmono : ∀ x ∈ st.active ++ st.done, x ∈
            (rec next { st with edges := insertEdge st.edges (cur, next) }).active ++
            (rec next { st with edges := insertEdge st.edges (cur, next) }).done := by
          intro x hx
          rw [rA, rD]
          rcases List.mem_append.mp hx with hx | hx
          · exact List.mem_append_left _ hx
          · exact List.mem_append_right _ (List.mem_append_left _ hx)
        have hfb2 : fb ≥ unseenCount V
            ((rec next { st with edges := insertEdge st.edges (cur, next) }).active ++
             (rec next { st with edges := insertEdge st.edges (cur, next) }).done) + 1 := by
          have := unseenCount_mono V hmono
          omega
        obtain ⟨ihA, ⟨dnew2, ihD, ihDm⟩, ⟨enew2, ihE, ihEm⟩, ihInv, ihInc, ihRec⟩ :=
          ih (rec next { st with edges := insertEdge st.edges (cur, next) })
            rInv (by rw [rA]; exact hcur) hrestV hfb2
        rw [hunfold]
        have hdoneEq : (dfsLoop rec rest cur
            (rec next { st with edges := insertEdge st.edges (cur, next) })).done
            = st.done ++ (dnewr ++ dnew2) := by
          rw [ihD, rD, List.append_assoc]
        have hedgeEq : (dfsLoop rec rest cur
            (rec next { st with edges := insertEdge st.edges (cur, next) })).edges
            = st.edges ++ (l ++ (enewr ++ enew2)) := by
          rw [ihE, rE]
          simp only [hl]
          rw [List.append_assoc, List.append_assoc]
        have hcurnotr : cur ∉ (rec next
            { st with edges := insertEdge st.edges (cur, next) }).done := by
          intro hc
          rw [rD] at hc
          rcases List.mem_append.mp hc with hc | hc
          · exact hAD cur hcur hc
          · exact (rDm cur hc).1 hcur
        refine ⟨by rw [ihA, rA], ⟨dnewr ++ dnew2, hdoneEq, ?_⟩,
          ⟨l ++ (enewr ++ enew2), hedgeEq, ?_⟩, ihInv, ?_, ?_⟩
        · intro x hx
          rcases List.mem_append.mp hx with hx | hx
          · exact rDm x hx
          · have h2 := ihDm x hx
            rw [rA, rD] at h2
            refine ⟨h2.1, fun hc => h2.2.1 (List.mem_append_left _ hc), h2.2.2⟩
        · intro e he
          rcases List.mem_append.mp he with he | he
          · rw [hle e he]
            refine ⟨Or.inl rfl, hnextV, fun _ => ?_⟩
            rw [hdoneEq]
            exact List.mem_append_right _
              (List.mem_append_left _ rDnext)
          · rcases List.mem_append.mp he with he | he
            · obtain ⟨⟨h1, h2⟩, h3⟩ := rEm e he
              refine ⟨Or.inr ⟨?_, h2⟩, h3, fun hc => ?_⟩
              · rw [ihD]
                exact List.mem_append_left _ h1
              · rw [hc] at h1
                exact absurd h1 hcurnotr
            · obtain ⟨h1, h3, h4⟩ := ihEm e he
              refine ⟨?_, h3, fun hc => h4 hc⟩
              rcases h1 with h1 | ⟨h1a, h1b⟩
              · exact Or.inl h1
              · refine Or.inr ⟨h1a, fun hc => h1b ?_⟩
                rw [rD]
                exact List.mem_append_left _ hc
        · intro x hx hnx
          rw [hdoneEq] at hx
          rcases List.mem_append.mp hx with hx | hx
          · exact absurd hx hnx
          · rcases List.mem_append.mp hx with hx | hx
            · by_cases hxn : x = next
              · subst hxn
                refine ⟨cur, ?_⟩
                rw [hedgeEq]
                have : (cur, x) ∈ insertEdge st.edges (cur, x) := hlin
                rw [hl] at this
                rcases List.mem_append.mp this with h | h
                · exact List.mem_append_left _ h
                · exact List.mem_append_right _ (List.mem_append_left _ h)
              · have hxr : x ∈ (rec next
                    { st with edges := insertEdge st.edges (cur, next) }).done := by
                  rw [rD]
                  exact List.mem_append_right _ hx
                obtain ⟨u, hu⟩ := rInc x hxr hnx hxn
                refine ⟨u, ?_⟩
                rw [ihE]
                exact List.mem_append_left _ hu
            · have hxd : x ∉ (rec next
                  { st with edges := insertEdge st.edges (cur, next) }).done := by
                have := ihDm x hx
                exact this.2.1
              have hxr : x ∈ (dfsLoop rec rest cur (rec next
                  { st with edges := insertEdge st.edges (cur, next) })).done := by
                rw [ihD]
                exact List.mem_append_right _ hx
              exact ihInc x hxr hxd
        · intro y hy hyact
          rcases List.mem_cons.mp hy with hy | hy
          · subst hy
            rw [hedgeEq]
            have : (cur, y) ∈ insertEdge st.edges (cur, y) := hlin
            rw [hl] at this
            rcases List.mem_append.mp this with h | h
            · exact List.mem_append_left _ h
            · exact List.mem_append_right _ (List.mem_append_left _ h)
          · exact ihRec y hy (by rw [rA]; exact hyact)

theorem dfsF_spec (adj : String → List String) (V : List String)
    (hadj : ∀ c, ∀ y ∈ adj c, y ∈ V) :
    ∀ (fuel : Nat) (cur : String) (st : DfsSt), StInv V st → cur ∈ V →
      cur ∉ st.active → cur ∉ st.done →
      fuel ≥ unseenCount V (st.active ++ st.done) + 1 →
      (dfsF adj fuel cur st).active = st.active ∧
      (∃ dnew, (dfsF adj fuel cur st).done = st.done ++ dnew ∧ cur ∈ dnew ∧
        (∀ x ∈ dnew, x ∉ st.active ∧ x ∉ st.done ∧ x ∈ V)) ∧
      (∃ enew, (dfsF adj fuel cur st).edges = st.edges ++ enew ∧
        ∀ e ∈ enew, (e.1 ∈ (dfsF adj fuel cur st).done ∧ e.1 ∉ st.done) ∧ e.2 ∈ V) ∧
      StInv V (dfsF adj fuel cur st) ∧
      (∀ x ∈ (dfsF adj fuel cur st).done, x ∉ st.done → x ≠ cur →
        ∃ u, (u, x) ∈ (dfsF adj fuel cur st).edges) ∧
      (∀ y ∈ adj cur, y ∉ cur :: st.active →
        (cur, y) ∈ (dfsF adj fuel cur st).edges) := by
  intro fuel
  induction fuel with
  | zero =>
    intro cur st _ _ _ _ hfuel
    omega
  | succ fuel ih =>
    intro cur st hinv hcurV hcurna hcurnd hfuel
    obtain ⟨hA, hD, hAD, hAV, hDV, hE, hO⟩ := hinv
    have hinv1 : StInv V { st with active := cur :: st.active } := by
      refine ⟨List.nodup_cons.mpr ⟨hcurna, hA⟩, hD, ?_, ?_, hDV, ?_, hO⟩
      · intro x hx
        rcases List.mem_cons.mp hx with hx | hx
        · subst hx; exact hcurnd
        · exact hAD x hx
      · intro x hx
        rcases List.mem_cons.mp hx with hx | hx
        · subst hx; exact hcurV
        · exact hAV x hx
      · intro e he
        obtain ⟨h1, h2⟩ := hE e he
        refine ⟨?_, h2⟩
        rcases h1 with h1 | h1
        · exact Or.inl (List.mem_cons_of_mem _ h1)
        · exact Or.inr h1
    have hlt : unseenCount V ((cur :: st.active) ++ st.done) <
        unseenCount V (st.active ++ st.done) := by
      apply unseenCount_lt hcurV
      · intro hc
        rcases List.mem_append.mp hc with hc | hc
        · exact hcurna hc
        · exact hcurnd hc
      · exact List.mem_append_left _ (List.mem_cons_self _ _)
      · intro x hx
        rcases List.mem_append.mp hx with hx | hx
        · exact List.mem_append_left _ (List.mem_cons_of_mem _ hx)
        · exact List.mem_append_right _ hx
    have hfb1 : fuel ≥ unseenCount V
        (({ st with active := cur :: st.active } : DfsSt).active ++
          ({ st with active := cur :: st.active } : DfsSt).done) + 1 := by
      show fuel ≥ unseenCount V ((cur :: st.active) ++ st.done) + 1
      omega
    have hrecIH : ∀ (next : String) (st2 : DfsSt), StInv V st2 → next ∈ V →
        next ∉ st2.active → next ∉ st2.done →
        fuel ≥ unseenCount V (st2.active ++ st2.done) + 1 →
        (dfsF adj fuel next st2).active = st2.active ∧
        (∃ dnew, (dfsF adj fuel next st2).done = st2.done ++ dnew ∧ next ∈ dnew ∧
          (∀ x ∈ dnew, x ∉ st2.active ∧ x ∉ st2.done ∧ x ∈ V)) ∧
        (∃ enew, (dfsF adj fuel next st2).edges = st2.edges ++ enew ∧
          ∀ e ∈ enew, (e.1 ∈ (dfsF adj fuel next st2).done ∧ e.1 ∉ st2.done) ∧
            e.2 ∈ V) ∧
        StInv V (dfsF adj fuel next st2) ∧
        (∀ x ∈ (dfsF adj fuel next st2).done, x ∉ st2.done → x ≠ next →
          ∃ u, (u, x) ∈ (dfsF adj fuel next st2).edges) := by
      intro next st2 a1 a2 a3 a4 a5
      obtain ⟨b1, b2, b3, b4, b5, _⟩ := ih next st2 a1 a2 a3 a4 a5
      exact ⟨b1, b2, b3, b4, b5⟩
    obtain ⟨lA, ⟨dnew, lD, lDm⟩, ⟨enew, lE, lEm⟩, lInv, lInc, lRec⟩ :=
      dfsLoop_spec V (fun n s => dfsF adj fuel n s) fuel cur hrecIH (adj cur)
        { st with active := cur :: st.active } hinv1 (List.mem_cons_self _ _)
        (hadj cur) hfb1
    have hunfold : dfsF adj (fuel + 1) cur st =
        { dfsLoop (fun n s => dfsF adj fuel n s) (adj cur) cur
            { st with active := cur :: st.active } with
          active := (dfsLoop (fun n s => dfsF adj fuel n s) (adj cur) cur
            { st with active := cur :: st.active }).active.erase cur,
          done := (dfsLoop (fun n s => dfsF adj fuel n s) (adj cur) cur
            { st with active := cur :: st.active }).done ++ [cur] } := rfl
    have hactive2 : (dfsLoop (fun n s => dfsF adj fuel n s) (adj cur) cur
        { st with active := cur :: st.active }).active = cur :: st.active := lA
    have herase : (dfsLoop (fun n s => dfsF adj fuel n s) (adj cur) cur
        { st with active := cur :: st.active }).active.erase cur = st.active := by
      rw [hactive2]
      exact List.erase_cons_head _ _
    have hcurd2 : cur ∉ (dfsLoop (fun n s => dfsF adj fuel n s) (adj cur) cur
        { st with active := cur :: st.active }).done := by
      rw [lD]
      intro hc
      rcases List.mem_append.mp hc with hc | hc
      · exact hcurnd hc
      · exact (lDm cur hc).1 (List.mem_cons_self _ _)
    obtain ⟨A2, D2, AD2, AV2, DV2, E2, O2⟩ := lInv
    rw [hunfold]
    refine ⟨herase, ⟨dnew ++ [cur], ?_, ?_, ?_⟩, ⟨enew, lE, ?_⟩, ?_, ?_, ?_⟩
    · show (dfsLoop (fun n s => dfsF adj fuel n s) (adj cur) cur
          { st with active := cur :: st.active }).done ++ [cur] = _
      rw [lD, List.append_assoc]
    · simp
    · intro x hx
      rcases List.mem_append.mp hx with hx | hx
      · obtain ⟨h1, h2, h3⟩ := lDm x hx
        exact ⟨fun hc => h1 (List.mem_cons_of_mem _ hc), h2, h3⟩
      · simp only [List.mem_singleton] at hx
        subst hx
        exact ⟨hcurna, hcurnd, hcurV⟩
    · intro e he
      obtain ⟨h1, h2, h3⟩ := lEm e he
      refine ⟨⟨?_, ?_⟩, h2⟩
      · show e.1 ∈ (dfsLoop (fun n s => dfsF adj fuel n s) (adj cur) cur
            { st with active := cur :: st.active }).done ++ [cur]
        rcases h1 with h1 | ⟨h1a, _⟩
        · rw [h1]; exact List.mem_append_right _ (List.mem_singleton_self _)
        · exact List.mem_append_left _ h1a
      · rcases h1 with h1 | ⟨_, h1b⟩
        · rw [h1]; exact hcurnd
        · exact h1b
    · -- the state invariant for the popped state
      refine ⟨by rw [herase]; exact hA, ?_, ?_, ?_, ?_, ?_, ?_⟩
      · show ((dfsLoop (fun n s => dfsF adj fuel n s) (adj cur) cur
            { st with active := cur :: st.active }).done ++ [cur]).Nodup
        exact List.Nodup.append D2 (List.nodup_singleton _)
          (fun x hx hy => by
            simp only [List.mem_singleton] at hy
            subst hy
            exact hcurd2 hx)
      · intro x hx
        rw [herase] at hx
        intro hc
        rcases List.mem_append.mp hc with hc | hc
        · exact AD2 x (by rw [hactive2]; exact List.mem_cons_of_mem _ hx) hc
        · simp only [List.mem_singleton] at hc
          subst hc
          exact hcurna hx
      · intro x hx
        rw [herase] at hx
        exact hAV x hx
      · intro x hx
        rcases List.mem_append.mp hx with hx | hx
        · exact DV2 x hx
        · simp only [List.mem_singleton] at hx
          subst hx
          exact hcurV
      · intro e he
        obtain ⟨h1, h2⟩ := E2 e he
        refine ⟨?_, h2⟩
        rcases h1 with h1 | h1
        · rw [hactive2] at h1
          rcases List.mem_cons.mp h1 with h1 | h1
          · rw [herase, h1]
            exact Or.inr (List.mem_append_right _ (List.mem_singleton_self _))
          · rw [herase]
            exact Or.inl h1
        · exact Or.inr (List.mem_append_left _ h1)
      · intro e he hed
        by_cases he1 : e.1 ∈ (dfsLoop (fun n s => dfsF adj fuel n s) (adj cur) cur
            { st with active := cur :: st.active }).done
        · obtain ⟨h1, h2⟩ := O2 e he he1
          refine ⟨List.mem_append_left _ h1, ?_⟩
          rw [idxIn_append_of_mem h1, idxIn_append_of_mem he1]
          exact h2
        · have hecur : e.1 = cur := by
            rcases List.mem_append.mp hed with hd | hd
            · exact absurd hd he1
            · simpa using hd
          have henew : e ∈ enew := by
            have hem : e ∈ st.edges ++ enew := by rw [← lE]; exact he
            rcases List.mem_append.mp hem with hm | hm
            · exfalso
              obtain ⟨hsrc, _⟩ := hE e hm
              rcases hsrc with hsrc | hsrc
              · exact hcurna (hecur ▸ hsrc)
              · exact hcurnd (hecur ▸ hsrc)
            · exact hm
          obtain ⟨_, _, h3⟩ := lEm e henew
          have he2d := h3 hecur
          refine ⟨List.mem_append_left _ he2d, ?_⟩
          rw [idxIn_append_of_mem he2d, hecur, idxIn_append_self hcurd2]
          exact idxIn_lt_length_of_mem he2d
    · intro x hx hnx hxc
      rcases List.mem_append.mp hx with hx | hx
      · exact lInc x hx hnx
      · simp only [List.mem_singleton] at hx
        exact absurd hx hxc
    · intro y hy hyact
      exact lRec y hy hyact

theorem dfsEntry_spec (adj : String → List String) (V : List String)
    (hadj : ∀ c, ∀ y ∈ adj c, y ∈ V) (fuel : Nat) :
    ∀ (nodes : List String) (st : DfsSt), StInv V st → st.active = [] →
      (∀ y ∈ nodes, y ∈ V) →
      fuel ≥ unseenCount V st.done + 1 →
      (dfsEntry adj fuel nodes st).active = [] ∧
      StInv V (dfsEntry adj fuel nodes st) ∧
      (∃ enew, (dfsEntry adj fuel nodes st).edges = st.edges ++ enew) ∧
      (∀ x ∈ st.done, x ∈ (dfsEntry adj fuel nodes st).done) ∧
      (∀ x ∈ nodes, x ∈ (dfsEntry adj fuel nodes st).done) ∧
      (∀ x ∈ (dfsEntry adj fuel nodes st).done, x ∈ st.done ∨
        (∃ u, (u, x) ∈ (dfsEntry adj fuel nodes st).edges) ∨
        (∀ y ∈ adj x, y ≠ x → (x, y) ∈ (dfsEntry adj fuel nodes st).edges)) := by
  intro nodes
  induction nodes with
  | nil =>
    intro st hinv hae _ _
    refine ⟨hae, hinv, ⟨[], by simp [dfsEntry]⟩, fun x hx => hx, by simp,
      fun x hx => Or.inl hx⟩
  | cons n rest ih =>
    intro st hinv hae hsub hfuel
    have hrestV : ∀ y ∈ rest, y ∈ V := fun y hy => hsub y (List.mem_cons_of_mem _ hy)
    by_cases hguard : n ∉ st.active ∧ n ∉ st.done
    · have hunfold : dfsEntry adj fuel (n :: rest) st
          = dfsEntry adj fuel rest (dfsF adj fuel n st) := by
        show dfsEntry adj fuel rest
          (if n ∉ st.active ∧ n ∉ st.done then dfsF adj fuel n st else st) = _
        rw [if_pos hguard]
      have hfuel2 : fuel ≥ unseenCount V (st.active ++ st.done) + 1 := by
        rw [hae]
        simpa using hfuel
      obtain ⟨fA, ⟨dnew, fD, fDn, fDm⟩, ⟨enew, fE, fEm⟩, fInv, fInc, fRec⟩ :=
        dfsF_spec adj V hadj fuel n st hinv (hsub n (List.mem_cons_self _ _))
          hguard.1 hguard.2 hfuel2
      have hae2 : (dfsF adj fuel n st).active = [] := by rw [fA, hae]
      have hfuel3 : fuel ≥ unseenCount V (dfsF adj fuel n st).done + 1 := by
        have hmono : ∀ x ∈ st.done, x ∈ (dfsF adj fuel n st).done := by
          intro x hx
          rw [fD]
          exact List.mem_append_left _ hx
        have := unseenCount_mono V hmono
        omega
      obtain ⟨eA, eInv, ⟨enew2, eE⟩, eD, eN, eCov⟩ :=
        ih (dfsF adj fuel n st) fInv hae2 hrestV hfuel3
      rw [hunfold]
      refine ⟨eA, eInv, ⟨enew ++ enew2, ?_⟩, ?_, ?_, ?_⟩
      · rw [eE, fE, List.append_assoc]
      · intro x hx
        apply eD
        rw [fD]
        exact List.mem_append_left _ hx
      · intro x hx
        rcases List.mem_cons.mp hx with hx | hx
        · subst hx
          apply eD
          rw [fD]
          exact List.mem_append_right _ fDn
        · exact eN x hx
      · intro x hx
        rcases eCov x hx with hc | hc | hc
        · -- x was finished by the dfsF call
          rw [fD] at hc
          rcases List.mem_append.mp hc with hc | hc
          · exact Or.inl hc
          · by_cases hxn : x = n
            · subst hxn
              refine Or.inr (Or.inr ?_)
              intro y hy hyx
              have hrec := fRec y hy (by
                rw [hae]
                intro hmem
                rcases List.mem_cons.mp hmem with h | h
                · exact hyx h
                · exact absurd h (List.not_mem_nil y))
              rw [eE]
              exact List.mem_append_left _ hrec
            · have hxdone : x ∈ (dfsF adj fuel n st).done := by
                rw [fD]
                exact List.mem_append_right _ hc
              obtain ⟨u, hu⟩ := fInc x hxdone (fDm x hc).2.1 hxn
              refine Or.inr (Or.inl ⟨u, ?_⟩)
              rw [eE]
              exact List.mem_append_left _ hu
        · exact Or.inr (Or.inl hc)
        · exact Or.inr (Or.inr hc)
    · have hunfold : dfsEntry adj fuel (n :: rest) st = dfsEntry adj fuel rest st := by
        show dfsEntry adj fuel rest
          (if n ∉ st.active ∧ n ∉ st.done then dfsF adj fuel n st else st) = _
        rw [if_neg hguard]
      have hnd : n ∈ st.done := by
        rcases not_and_or.mp hguard with h | h
        · rw [not_not] at h
          rw [hae] at h
          exact absurd h (List.not_mem_nil n)
        · rwa [not_not] at h
      obtain ⟨eA, eInv, eE, eD, eN, eCov⟩ := ih st hinv hae hrestV hfuel
      rw [hunfold]
      refine ⟨eA, eInv, eE, eD, ?_, eCov⟩
      intro x hx
      rcases List.mem_cons.mp hx with hx | hx
      · subst hx
        exact eD x hnd
      · exact eN x hx

theorem consecIn_desc {E : List (String × String)} {D : List String}
    (h : ∀ e ∈ E, e.2 ∈ D ∧ idxIn D e.2 < idxIn D e.1) :
    ∀ (p : List String) (a y : String), consecIn E (a :: p) → p ≠ [] →
      (a :: p).getLast? = some y → idxIn D y < idxIn D a := by
  intro p
  induction p with
  | nil => intro a y _ hne; exact absurd rfl hne
  | cons b rest ih =>
    intro a y hcons _ hlast
    have hedge := h (a, b) hcons.1
    rw [List.getLast?_cons_cons] at hlast
    cases rest with
    | nil =>
      obtain rfl : b = y := by simpa using hlast
      exact hedge.2
    | cons c rest2 =>
      have hlt : idxIn D b < idxIn D a := hedge.2
      have := ih b y hcons.2 (by simp) hlast
      omega

theorem no_cycle_of_order {E : List (String × String)} {D : List String}
    (h : ∀ e ∈ E, e.2 ∈ D ∧ idxIn D e.2 < idxIn D e.1) : ¬ HasEdgeCycle E := by
  rintro ⟨p, hlen, hcons, hcyc⟩
  cases p with
  | nil => simp at hlen
  | cons a q =>
    cases q with
    | nil => simp at hlen
    | cons b rest =>
      have hhead : (a :: b :: rest).head? = some a := rfl
      rw [hhead] at hcyc
      have hlast : (a :: b :: rest).getLast? = some a := hcyc.symm
      have := consecIn_desc h (b :: rest) a a hcons (by simp) hlast
      omega

theorem mem_reachable_iff {g : Graph} {target : String}
    (hnd : (keysOf g).Nodup) (n : String) :
    n ∈ computeReachableToTarget target g ↔ Reaches g n target := by
  have hadj : ∀ c, ∀ x ∈ lookupG (buildReverse g) c, x ∈ valuesOf (buildReverse g) :=
    fun c x hx => mem_lookupG_mem_values hx
  have hcnt := unseenCount_le (valuesOf (buildReverse g)) [target]
  obtain ⟨hgrow, hsound, hclosed⟩ := bfsF_spec
    (fun cur => lookupG (buildReverse g) cur) (valuesOf (buildReverse g)) hadj
    [target] ((valuesOf (buildReverse g)).length + 2) [target] [target]
    (by simp only [List.length_singleton]; omega)
    (fun x hx => hx)
    (fun x hx => ⟨target, List.mem_singleton_self _, by
      simp only [List.mem_singleton] at hx
      subst hx
      exact ReachesVia.refl x⟩)
    (fun x hx hnq => absurd hx hnq)
  have hR : computeReachableToTarget target g
      = bfsF (fun cur => lookupG (buildReverse g) cur)
        ((valuesOf (buildReverse g)).length + 2) [target] [target] := rfl
  constructor
  · intro hn
    rw [hR] at hn
    obtain ⟨s, hs, hr⟩ := hsound n hn
    simp only [List.mem_singleton] at hs
    subst hs
    exact (reachesVia_rev_iff hnd).mp hr
  · intro hreach
    rw [hR]
    exact reachesVia_mem_closed hclosed (hgrow target (List.mem_singleton_self _))
      ((reachesVia_rev_iff hnd).mpr hreach)

theorem initSeeds_go (reachable : List String) :
    ∀ (mains : List String) (r q : List String),
      (∀ x, x ∈ (List.foldl (initSeedsStep reachable) (r, q) mains).1 ↔
        x ∈ r ∨ (x ∈ mains ∧ x ∈ reachable)) ∧
      (∀ x ∈ (List.foldl (initSeedsStep reachable) (r, q) mains).2,
        x ∈ q ∨ (x ∈ mains ∧ x ∈ reachable)) ∧
      (List.foldl (initSeedsStep reachable) (r, q) mains).2.length
        ≤ q.length + mains.length ∧
      (∀ x ∈ (List.foldl (initSeedsStep reachable) (r, q) mains).1,
        x ∈ r ∨ x ∈ (List.foldl (initSeedsStep reachable) (r, q) mains).2) ∧
      (∀ x ∈ q, x ∈ (List.foldl (initSeedsStep reachable) (r, q) mains).2) := by
  intro mains
  induction mains with
  | nil =>
    intro r q
    refine ⟨fun x => by simp, fun x hx => Or.inl hx, by simp, ?_, fun x hx => hx⟩
    intro x hx
    exact Or.inl hx
  | cons m rest ih =>
    intro r q
    rw [List.foldl_cons]
    by_cases hm : m ∈ reachable
    · by_cases hmr : m ∈ r
      · have hstep : initSeedsStep reachable (r, q) m = (r, q ++ [m]) := by
          simp [initSeedsStep, hm, hmr]
        rw [hstep]
        obtain ⟨i1, i2, i3, i4, i5⟩ := ih r (q ++ [m])
        refine ⟨?_, ?_, ?_, i4, ?_⟩
        · intro x
          rw [i1 x]
          constructor
          · rintro (h | ⟨h1, h2⟩)
            · exact Or.inl h
            · exact Or.inr ⟨List.mem_cons_of_mem _ h1, h2⟩
          · rintro (h | ⟨h1, h2⟩)
            · exact Or.inl h
            · rcases List.mem_cons.mp h1 with h1 | h1
              · subst h1
                exact Or.inl hmr
              · exact Or.inr ⟨h1, h2⟩
        · intro x hx
          rcases i2 x hx with h | ⟨h1, h2⟩
          · rcases List.mem_append.mp h with h | h
            · exact Or.inl h
            · obtain rfl : x = m := by simpa using h
              exact Or.inr ⟨List.mem_cons_self _ _, hm⟩
          · exact Or.inr ⟨List.mem_cons_of_mem _ h1, h2⟩
        · have := i3
          rw [List.length_append] at this
          simp only [List.length_cons, List.length_singleton, List.length_nil]
            at this ⊢
          omega
        · intro x hx
          exact i5 x (List.mem_append_left _ hx)
      · have hstep : initSeedsStep reachable (r, q) m = (r ++ [m], q ++ [m]) := by
          simp [initSeedsStep, hm, hmr]
        rw [hstep]
        obtain ⟨i1, i2, i3, i4, i5⟩ := ih (r ++ [m]) (q ++ [m])
        refine ⟨?_, ?_, ?_, ?_, ?_⟩
        · intro x
          rw [i1 x]
          constructor
          · rintro (h | ⟨h1, h2⟩)
            · rcases List.mem_append.mp h with h | h
              · exact Or.inl h
              · obtain rfl : x = m := by simpa using h
                exact Or.inr ⟨List.mem_cons_self _ _, hm⟩
            · exact Or.inr ⟨List.mem_cons_of_mem _ h1, h2⟩
          · rintro (h | ⟨h1, h2⟩)
            · exact Or.inl (List.mem_append_left _ h)
            · rcases List.mem_cons.mp h1 with h1 | h1
              · subst h1
                exact Or.inl (List.mem_append_right _ (List.mem_singleton_self _))
              · exact Or.inr ⟨h1, h2⟩
        · intro x hx
          rcases i2 x hx with h | ⟨h1, h2⟩
          · rcases List.mem_append.mp h with h | h
            · exact Or.inl h
            · obtain rfl : x = m := by simpa using h
              exact Or.inr ⟨List.mem_cons_self _ _, hm⟩
          · exact Or.inr ⟨List.mem_cons_of_mem _ h1, h2⟩
        · have := i3
          rw [List.length_append] at this
          simp only [List.length_cons, List.length_singleton, List.length_nil]
            at this ⊢
          omega
        · intro x hx
          rcases i4 x hx with h | h
          · rcases List.mem_append.mp h with h | h
            · exact Or.inl h
            · obtain rfl : x = m := by simpa using h
              exact Or.inr (i5 x (List.mem_append_right _ (List.mem_singleton_self _)))
          · exact Or.inr h
        · intro x hx
          exact i5 x (List.mem_append_left _ hx)
    · have hstep : initSeedsStep reachable (r, q) m = (r, q) := by
        simp [initSeedsStep, hm]
      rw [hstep]
      obtain ⟨i1, i2, i3, i4, i5⟩ := ih r q
      refine ⟨?_, ?_, ?_, i4, i5⟩
      · intro x
        rw [i1 x]
        constructor
        · rintro (h | ⟨h1, h2⟩)
          · exact Or.inl h
          · exact Or.inr ⟨List.mem_cons_of_mem _ h1, h2⟩
        · rintro (h | ⟨h1, h2⟩)
          · exact Or.inl h
          · rcases List.mem_cons.mp h1 with h1 | h1
            · subst h1
              exact absurd h2 hm
            · exact Or.inr ⟨h1, h2⟩
      · intro x hx
        rcases i2 x hx with h | ⟨h1, h2⟩
        · exact Or.inl h
        · exact Or.inr ⟨List.mem_cons_of_mem _ h1, h2⟩
      · simp only [List.length_cons] at *
        omega

theorem reachesVia_filter_of_path (g : Graph) (reachable : List String) :
    ∀ (p : List String) (m n : String), p.head? = some m → p.getLast? = some n →
      consecEdges g p → (∀ x ∈ p, x ∈ reachable) →
      ReachesVia (fun c => (lookupG g c).filter (fun t => t ∈ reachable)) m n := by
  intro p
  induction p with
  | nil => intro m n hh; simp at hh
  | cons a rest ih =>
    intro m n hh hl hc hmem
    have ham : a = m := by simpa using hh
    rw [← ham]
    cases rest with
    | nil =>
      have han : a = n := by simpa using hl
      rw [← han]
      exact ReachesVia.refl a
    | cons b rest2 =>
      rw [List.getLast?_cons_cons] at hl
      have hb : b ∈ (lookupG g a).filter (fun t => t ∈ reachable) := by
        rw [List.mem_filter]
        exact ⟨hc.1, by
          simp only [decide_eq_true_eq]
          exact hmem b (List.mem_cons_of_mem _ (List.mem_cons_self _ _))⟩
      exact ReachesVia.head hb
        (ih b n rfl hl hc.2 (fun x hx => hmem x (List.mem_cons_of_mem _ hx)))

theorem path_of_reachesVia_filter {g : Graph} {reachable : List String}
    {m n : String}
    (h : ReachesVia (fun c => (lookupG g c).filter (fun t => t ∈ reachable)) m n) :
    m ∈ reachable →
    ∃ p : List String, p.head? = some m ∧ p.getLast? = some n ∧
      consecEdges g p ∧ ∀ x ∈ p, x ∈ reachable := by
  induction h with
  | refl k =>
    intro hk
    exact ⟨[k], rfl, rfl, trivial, by
      intro x hx
      obtain rfl : x = k := by simpa using hx
      exact hk⟩
  | head hab h ih =>
    intro ha
    rw [List.mem_filter, decide_eq_true_eq] at hab
    obtain ⟨p, hh, hl, hc, hmem⟩ := ih hab.2
    cases p with
    | nil => simp at hh
    | cons b2 rest =>
      obtain rfl : b2 = _ := by simpa using hh
      refine ⟨_ :: b2 :: rest, rfl, ?_, ⟨hab.1, hc⟩, ?_⟩
      · rw [List.getLast?_cons_cons]
        exact hl
      · intro x hx
        rcases List.mem_cons.mp hx with hx | hx
        · subst hx
          exact ha
        · exact hmem x hx

theorem reachesVia_first_step {adj : String → List String} :
    ∀ {a t : String}, ReachesVia adj a t → a ≠ t →
      ∃ b, b ≠ a ∧ b ∈ adj a ∧ ReachesVia adj b t := by
  intro a t h
  induction h with
  | refl k => intro hk; exact absurd rfl hk
  | head hab h ih =>
    intro hne
    rename_i a2 b2 c2
    by_cases hba : b2 = a2
    · subst hba
      exact ih hne
    · exact ⟨b2, hba, hab, h⟩

theorem mem_adjRestricted {g : Graph} {R : List String} {a y : String} :
    y ∈ adjRestricted g R a ↔ a ∈ R ∧ y ∈ lookupG g a ∧ y ∈ R := by
  unfold adjRestricted
  by_cases ha : a ∈ R
  · rw [if_pos ha, mem_sortStrings, List.mem_filter, decide_eq_true_eq]
    constructor
    · rintro ⟨h1, h2⟩
      exact ⟨ha, h1, h2⟩
    · rintro ⟨_, h1, h2⟩
      exact ⟨h1, h2⟩
  · rw [if_neg ha]
    constructor
    · intro h
      exact absurd h (List.not_mem_nil y)
    · rintro ⟨h, _⟩
      exact absurd h ha

theorem dfs_phase_spec (g : Graph) (R : List String) (st : DfsSt)
    (hst : st = dfsEntry (adjRestricted g R) ((sortStrings R).length + 1)
      (sortStrings R) { active := [], done := [], edges := [] }) :
    (∀ e ∈ st.edges, e.1 ∈ R ∧ e.2 ∈ R) ∧
    ¬ HasEdgeCycle st.edges ∧
    (∀ n ∈ R, (∃ u, (u, n) ∈ st.edges) ∨
      (∀ y, y ∈ lookupG g n → y ∈ R → y ≠ n → (n, y) ∈ st.edges)) := by
  subst hst
  have hadj : ∀ c, ∀ y ∈ adjRestricted g R c, y ∈ sortStrings R := by
    intro c y hy
    rw [mem_sortStrings]
    exact (mem_adjRestricted.mp hy).2.2
  have hinv0 : StInv (sortStrings R) { active := [], done := [], edges := [] } := by
    refine ⟨List.nodup_nil, List.nodup_nil, ?_, ?_, ?_, ?_, ?_⟩ <;>
      intro x hx <;> exact absurd hx (List.not_mem_nil x)
  have hfuel : (sortStrings R).length + 1
      ≥ unseenCount (sortStrings R) (DfsSt.done { active := [], done := [], edges := [] }) + 1 := by
    have := unseenCount_le (sortStrings R)
      (DfsSt.done { active := [], done := [], edges := [] })
    omega
  obtain ⟨eA, eInv, ⟨enew, hE⟩, eD, eN, eCov⟩ :=
    dfsEntry_spec (adjRestricted g R) (sortStrings R) hadj
      ((sortStrings R).length + 1) (sortStrings R)
      { active := [], done := [], edges := [] } hinv0 rfl
      (fun y hy => hy) hfuel
  obtain ⟨_, _, _, _, hDV, hEact, hEord⟩ := eInv
  have hsrc : ∀ e ∈ (dfsEntry (adjRestricted g R) ((sortStrings R).length + 1)
      (sortStrings R) { active := [], done := [], edges := [] }).edges,
      e.1 ∈ (dfsEntry (adjRestricted g R) ((sortStrings R).length + 1)
        (sortStrings R) { active := [], done := [], edges := [] }).done := by
    intro e he
    rcases (hEact e he).1 with h | h
    · rw [eA] at h
      exact absurd h (List.not_mem_nil _)
    · exact h
  refine ⟨?_, ?_, ?_⟩
  · intro e he
    constructor
    · have := hDV e.1 (hsrc e he)
      rwa [mem_sortStrings] at this
    · have := (hEact e he).2
      rwa [mem_sortStrings] at this
  · apply no_cycle_of_order
    intro e he
    exact hEord e he (hsrc e he)
  · intro n hn
    have hnV : n ∈ sortStrings R := (mem_sortStrings R n).mpr hn
    rcases eCov n (eN n hnV) with h | h | h
    · exact absurd h (List.not_mem_nil n)
    · exact Or.inl h
    · refine Or.inr ?_
      intro y hy1 hy2 hy3
      exact h y (mem_adjRestricted.mpr ⟨hn, hy1, hy2⟩) hy3

theorem bfs_phase_spec (g : Graph) (reachable mains : List String) :
    (∀ n, n ∈ (computePathSubgraph mains g reachable).1 ↔
      ∃ m, m ∈ mains ∧ ∃ p : List String, p.head? = some m ∧ p.getLast? = some n ∧
        consecEdges g p ∧ ∀ x ∈ p, x ∈ reachable) ∧
    (∀ x ∈ (computePathSubgraph mains g reachable).1, ∀ y, y ∈ lookupG g x →
      y ∈ reachable → y ∈ (computePathSubgraph mains g reachable).1) := by
  have hfst : (computePathSubgraph mains g reachable).1
      = bfsF (fun cur => (lookupG g cur).filter (fun t => t ∈ reachable))
        ((valuesOf g).length + mains.length + 2)
        (initSeeds reachable mains).1 (initSeeds reachable mains).2 := rfl
  have hadj : ∀ c, ∀ x ∈ (lookupG g c).filter (fun t => t ∈ reachable),
      x ∈ valuesOf g := by
    intro c x hx
    exact mem_lookupG_mem_values (List.mem_filter.mp hx).1
  obtain ⟨i1, i2, i3, i4, _⟩ := initSeeds_go reachable mains [] []
  have hseed : initSeeds reachable mains
      = List.foldl (initSeedsStep reachable) ([], []) mains := rfl
  have hr0 : ∀ x, x ∈ (initSeeds reachable mains).1 ↔ x ∈ mains ∧ x ∈ reachable := by
    intro x
    rw [hseed, i1 x]
    constructor
    · rintro (h | h)
      · exact absurd h (List.not_mem_nil x)
      · exact h
    · exact Or.inr
  have hq0 : ∀ x ∈ (initSeeds reachable mains).2, x ∈ (initSeeds reachable mains).1 := by
    intro x hx
    rw [hseed] at hx ⊢
    rcases i2 x hx with h | h
    · exact absurd h (List.not_mem_nil x)
    · rw [i1 x]
      exact Or.inr h
  have hrq : ∀ x ∈ (initSeeds reachable mains).1, x ∈ (initSeeds reachable mains).2 := by
    intro x hx
    rw [hseed] at hx ⊢
    rcases i4 x hx with h | h
    · exact absurd h (List.not_mem_nil x)
    · exact h
  have hql : (initSeeds reachable mains).2.length ≤ mains.length := by
    rw [hseed]
    simpa using i3
  have hcnt := unseenCount_le (valuesOf g) (initSeeds reachable mains).1
  obtain ⟨hgrow, hsound, hclosed⟩ := bfsF_spec
    (fun cur => (lookupG g cur).filter (fun t => t ∈ reachable)) (valuesOf g) hadj
    (initSeeds reachable mains).1 ((valuesOf g).length + mains.length + 2)
    (initSeeds reachable mains).1 (initSeeds reachable mains).2
    (by omega)
    hq0
    (fun x hx => ⟨x, hx, ReachesVia.refl x⟩)
    (fun x hx hnq => absurd (hrq x hx) hnq)
  constructor
  · intro n
    rw [hfst]
    constructor
    · intro hn
      obtain ⟨s, hs, hreach⟩ := hsound n hn
      obtain ⟨hsm, hsr⟩ := (hr0 s).mp hs
      obtain ⟨p, hh, hl, hc, hmem⟩ := path_of_reachesVia_filter hreach hsr
      exact ⟨s, hsm, p, hh, hl, hc, hmem⟩
    · rintro ⟨m, hm, p, hh, hl, hc, hmem⟩
      have hmr : m ∈ reachable := by
        cases p with
        | nil => simp at hh
        | cons a rest =>
          obtain rfl : a = m := by simpa using hh
          exact hmem a (List.mem_cons_self _ _)
      have hmR : m ∈ (initSeeds reachable mains).1 := (hr0 m).mpr ⟨hm, hmr⟩
      exact reachesVia_mem_closed hclosed (hgrow m hmR)
        (reachesVia_filter_of_path g reachable p m n hh hl hc hmem)
  · intro x hx y hy1 hy2
    rw [hfst] at hx ⊢
    refine hclosed x hx y ?_
    rw [List.mem_filter, decide_eq_true_eq]
    exact ⟨hy1, hy2⟩

/-- C4: for every graph, start-node list, and target, computePathSubgraph
applied to the reachability map computed for that target returns an edge set
containing no directed cycle (no nonempty edge path from a node back to
itself), and a node set holding exactly the nodes reachable from some start
node by a path that stays entirely inside the target's reachability set. -/
theorem computePathSubgraph_spec (g : Graph) (mains : List String) (target : String) :
    ¬ HasEdgeCycle (computePathSubgraph mains g (computeReachableToTarget target g)).2 ∧
    (∀ n, n ∈ (computePathSubgraph mains g (computeReachableToTarget target g)).1 ↔
      ∃ m, m ∈ mains ∧ ∃ p : List String, p.head? = some m ∧ p.getLast? = some n ∧
        consecEdges g p ∧ ∀ x ∈ p, x ∈ computeReachableToTarget target g) := by
  constructor
  · have hE : (computePathSubgraph mains g (computeReachableToTarget target g)).2
        = (dfsEntry
            (adjRestricted g
              (computePathSubgraph mains g (computeReachableToTarget target g)).1)
            ((sortStrings
              (computePathSubgraph mains g (computeReachableToTarget target g)).1).length + 1)
            (sortStrings
              (computePathSubgraph mains g (computeReachableToTarget target g)).1)
            { active := [], done := [], edges := [] }).edges := rfl
    rw [hE]
    exact (dfs_phase_spec g
      (computePathSubgraph mains g (computeReachableToTarget target g)).1 _ rfl).2.1
  · exact (bfs_phase_spec g (computeReachableToTarget target g) mains).1

/-- C7: for every graph with duplicate-free keys, start-node list, and
target, with the reachability map computed for that target, every recorded
edge of computePathSubgraph has both endpoints in the returned node set, and
every node of the returned node set is a start node, the target itself, or
an endpoint of a recorded edge whose other endpoint is also in the node
set. -/
theorem computePathSubgraph_connected (g : Graph) (mains : List String)
    (target : String) (hnd : (keysOf g).Nodup) :
    (∀ e ∈ (computePathSubgraph mains g (computeReachableToTarget target g)).2,
      e.1 ∈ (computePathSubgraph mains g (computeReachableToTarget target g)).1 ∧
      e.2 ∈ (computePathSubgraph mains g (computeReachableToTarget target g)).1) ∧
    (∀ n ∈ (computePathSubgraph mains g (computeReachableToTarget target g)).1,
      n ∈ mains ∨ n = target ∨
      ∃ u, u ∈ (computePathSubgraph mains g (computeReachableToTarget target g)).1 ∧
        ((u, n) ∈ (computePathSubgraph mains g (computeReachableToTarget target g)).2 ∨
         (n, u) ∈ (computePathSubgraph mains g (computeReachableToTarget target g)).2)) := by
  have hE : (computePathSubgraph mains g (computeReachableToTarget target g)).2
      = (dfsEntry
          (adjRestricted g
            (computePathSubgraph mains g (computeReachableToTarget target g)).1)
          ((sortStrings
            (computePathSubgraph mains g (computeReachableToTarget target g)).1).length + 1)
          (sortStrings
            (computePathSubgraph mains g (computeReachableToTarget target g)).1)
          { active := [], done := [], edges := [] }).edges := rfl
  obtain ⟨hG1, _, hG5⟩ := dfs_phase_spec g
    (computePathSubgraph mains g (computeReachableToTarget target g)).1 _ rfl
  obtain ⟨hiff, hcl⟩ := bfs_phase_spec g (computeReachableToTarget target g) mains
  constructor
  · intro e he
    rw [hE] at he
    exact hG1 e he
  · intro n hn
    by_cases hmain : n ∈ mains
    · exact Or.inl hmain
    by_cases htgt : n = target
    · exact Or.inr (Or.inl htgt)
    refine Or.inr (Or.inr ?_)
    have hnr : n ∈ computeReachableToTarget target g := by
      obtain ⟨m, _, p, _, hl, _, hmem⟩ := (hiff n).mp hn
      exact hmem n (mem_of_getLast?_eq hl)
    rcases hG5 n hn with ⟨u, hu⟩ | hcov
    · refine ⟨u, ?_, Or.inl (by rw [hE]; exact hu)⟩
      exact (hG1 (u, n) hu).1
    · have hreach : Reaches g n target := (mem_reachable_iff hnd n).mp hnr
      obtain ⟨b, hbn, hbe, hbt⟩ := reachesVia_first_step hreach htgt
      have hbr : b ∈ computeReachableToTarget target g :=
        (mem_reachable_iff hnd b).mpr hbt
      have hbR : b ∈ (computePathSubgraph mains g
          (computeReachableToTarget target g)).1 := hcl n hn b hbe hbr
      refine ⟨b, hbR, Or.inr ?_⟩
      rw [hE]
      exact hcov b hbe hbR hbn

theorem computePathSubgraph_connected_witness :
    (keysOf [("A", ["B", "C"]), ("B", ["D"]), ("C", ["D"])]).Nodup ∧
    ((∀ e ∈ (computePathSubgraph ["A"] [("A", ["B", "C"]), ("B", ["D"]), ("C", ["D"])]
        (computeReachableToTarget "D" [("A", ["B", "C"]), ("B", ["D"]), ("C", ["D"])])).2,
      e.1 ∈ (computePathSubgraph ["A"] [("A", ["B", "C"]), ("B", ["D"]), ("C", ["D"])]
        (computeReachableToTarget "D" [("A", ["B", "C"]), ("B", ["D"]), ("C", ["D"])])).1 ∧
      e.2 ∈ (computePathSubgraph ["A"] [("A", ["B", "C"]), ("B", ["D"]), ("C", ["D"])]
        (computeReachableToTarget "D" [("A", ["B", "C"]), ("B", ["D"]), ("C", ["D"])])).1) ∧
    (∀ n ∈ (computePathSubgraph ["A"] [("A", ["B", "C"]), ("B", ["D"]), ("C", ["D"])]
        (computeReachableToTarget "D" [("A", ["B", "C"]), ("B", ["D"]), ("C", ["D"])])).1,
      n ∈ ["A"] ∨ n = "D" ∨
      ∃ u, u ∈ (computePathSubgraph ["A"] [("A", ["B", "C"]), ("B", ["D"]), ("C", ["D"])]
          (computeReachableToTarget "D" [("A", ["B", "C"]), ("B", ["D"]), ("C", ["D"])])).1 ∧
        ((u, n) ∈ (computePathSubgraph ["A"] [("A", ["B", "C"]), ("B", ["D"]), ("C", ["D"])]
          (computeReachableToTarget "D" [("A", ["B", "C"]), ("B", ["D"]), ("C", ["D"])])).2 ∨
         (n, u) ∈ (computePathSubgraph ["A"] [("A", ["B", "C"]), ("B", ["D"]), ("C", ["D"])]
          (computeReachableToTarget "D" [("A", ["B", "C"]), ("B", ["D"]), ("C", ["D"])])).2))) :=
  ⟨by decide,
   computePathSubgraph_connected [("A", ["B", "C"]), ("B", ["D"]), ("C", ["D"])]
     ["A"] "D" (by decide)⟩

end Depstat
